import Mathlib

/-!
Verification development for the Sheet-Music-Tool playback core
(`usePlayback` hook: MusicXML parsing, timeline reconstruction, tie
merging, scheduling) against its natural-language specification.

Numbers are modelled as rationals (the JS engine computes in binary
floating point; every constant and operation relevant to the verified
claims — sums, minima, clamps, divisions of small rationals — is exact,
so `ℚ` is a faithful model).  DOM queries are modelled as already-parsed
structured values: an `Option` is `none` when the element/attribute is
missing, or when `parseFloat`/`parseInt` returned `NaN` in a position
where the code treats `NaN` exactly like a missing value (each such
folding is noted at the field).
-/

namespace SheetMusic

/-- The JS idiom `parseInt(x) || 1`: `0` (and `NaN`, folded into `0`
by the translation) is replaced by `1`; any other integer is kept. -/
def orOneZ (z : ℤ) : ℤ := if z = 0 then 1 else z

/-- `typeToQuarters` lookup table from `parseNotesFromMusicXML`. -/
def typeToQuarters (t : String) : Option ℚ :=
  if t = "maxima" then some 32
  else if t = "long" then some 16
  else if t = "breve" then some 8
  else if t = "whole" then some 4
  else if t = "half" then some 2
  else if t = "quarter" then some 1
  else if t = "eighth" then some (1/2)
  else if t = "16th" then some (1/4)
  else if t = "32nd" then some (1/8)
  else if t = "64th" then some (1/16)
  else none

/-- The dot loop `let dotVal = dur / 2; for (d in dots) { dur += dotVal; dotVal /= 2 }`,
with `dur` and `dotVal` as explicit accumulators. -/
def dottedGo (dur dotVal : ℚ) : ℕ → ℚ
  | 0 => dur
  | d + 1 => dottedGo (dur + dotVal) (dotVal / 2) d

/-- Duration of a base value extended by `dots` augmentation dots, as computed
by the dot loops at lines 111-115 and 221-225 of the source (both identical). -/
def dotted (base : ℚ) (dots : ℕ) : ℚ := dottedGo base (base / 2) dots

/-- The `<pitch>` child of a note: `step`/`octave` text (missing element
modelled as `none`) and the `alter` value (`none` = element missing or
`parseInt` gave `NaN`, which the code treats identically: no accidental). -/
structure PitchData where
  step : Option String
  octave : Option String
  alter : Option ℤ
deriving DecidableEq, Repr

/-- A `<note>` element, as the fields the parser queries.
`timeMod`: outer `Option` = presence of `<time-modification>`, inner
`Option` = presence of both `<actual-notes>` and `<normal-notes>`, the
pair being `(actualNotes, normalNotes)` as `parseInt` values (NaN folded
into `0`, which `|| 1` maps to `1` exactly like NaN).
`rawDuration`: `parseFloat` of `<duration>` (`none` = missing or NaN).
`staffRaw`/`voiceRaw`: `parseInt` of `<staff>`/`<voice>` (NaN folded into 0).
`dynamics`: tag name of the first child of `<dynamics>`.
`tieTypes`/`tiedTypes`: the `type` attributes of the `<tie>` elements and of
the `<tied>` elements inside `<notations>` (missing attribute = `""`). -/
structure NoteElem where
  isCue : Bool := false
  isGrace : Bool := false
  isChord : Bool := false
  isRest : Bool := false
  noteType : Option String := none
  dots : ℕ := 0
  timeMod : Option (Option (ℤ × ℤ)) := none
  rawDuration : Option ℚ := none
  pitch : Option PitchData := none
  staffRaw : Option ℤ := none
  voiceRaw : Option ℤ := none
  dynamics : Option String := none
  tieTypes : List String := []
  tiedTypes : List String := []
deriving DecidableEq, Repr

/-- `getTupletRatio` (source lines 192-207): `normalNotes / actualNotes`,
each going through `parseInt(...) || 1`; `1` when the `<time-modification>`
element or either count is missing. -/
def getTupletRatio (n : NoteElem) : ℚ :=
  match n.timeMod with
  | some (some (a, nn)) => (orOneZ nn : ℚ) / (orOneZ a : ℚ)
  | _ => 1

/-- `getDurationInQuarters` (source lines 211-241): prefer a recognized
symbolic `<type>` (dot-expanded, tuplet-scaled); otherwise fall back to
`rawTicks / divisions` guarded by `divisions > 0` and `raw > 0`; else 0. -/
def getDurationInQuarters (divisions : ℚ) (n : NoteElem) : ℚ :=
  match n.noteType with
  | some t =>
    match typeToQuarters t with
    | some q => dotted q n.dots * getTupletRatio n
    | none => match n.rawDuration with
      | some r => if 0 < divisions ∧ 0 < r then r / divisions else 0
      | none => 0
  | none => match n.rawDuration with
    | some r => if 0 < divisions ∧ 0 < r then r / divisions else 0
    | none => 0

/-- The divisions auto-detection scan (source lines 96-126): walk the
document's notes in order; skip grace/chord/rest notes and notes with a
`<time-modification>`; for a note with recognized `<type>` and a raw
`<duration>`, if `raw > 0` and the dot-expanded expected quarter length
is `> 0`, compute `inferred = raw / expected`; adopt it and stop if
`inferred >= 1`, otherwise keep scanning. -/
def inferDivisions (g : ℚ) : List NoteElem → ℚ
  | [] => g
  | n :: ns =>
    if n.isGrace ∨ n.isChord ∨ n.isRest then inferDivisions g ns
    else if n.timeMod.isSome then inferDivisions g ns
    else
      match n.noteType, n.rawDuration with
      | some t, some r =>
        match typeToQuarters t with
        | some tq =>
          let eq := dotted tq n.dots
          if 0 < r ∧ 0 < eq then
            if 1 ≤ r / eq then r / eq else inferDivisions g ns
          else inferDivisions g ns
        | none => inferDivisions g ns
      | _, _ => inferDivisions g ns

/-- A raw note event pushed onto `notes` by the reconstructor.  Grace
events in the source carry no `voice` property and regular events no
`isGrace` property; both are given the default (`1` / `false`) here —
neither field is ever read on the side that lacks it (grace events skip
the tie key entirely). -/
structure RawNote where
  pitch : String
  time : ℚ
  duration : ℚ
  velocity : ℚ
  measureIndex : ℕ
  tieStart : Bool
  tieStop : Bool
  partIndex : ℕ
  staff : ℤ
  voice : ℤ
  isGrace : Bool
deriving DecidableEq, Repr

/-- A merged note event: the five fields left after the tie resolver
deletes `tieStart`, `tieStop`, `partIndex`, `staff`, `voice`, `isGrace`. -/
structure MergedNote where
  pitch : String
  time : ℚ
  duration : ℚ
  velocity : ℚ
  measureIndex : ℕ
deriving DecidableEq, Repr

/-- Field deletion (`delete note.tieStart; ...`) before pushing to `merged`. -/
def cleanNote (n : RawNote) : MergedNote :=
  ⟨n.pitch, n.time, n.duration, n.velocity, n.measureIndex⟩

/-- The template-string key `pitch-staff-partIndex-voice` of the tie map.
The string representation of an `(ℤ, ℤ, ℕ, ℤ)` quadruple is injective, so
the tuple is used directly. -/
abbrev TieKey := String × ℤ × ℕ × ℤ

def tieKey (n : RawNote) : TieKey := (n.pitch, n.staff, n.partIndex, n.voice)

/-- JS `Map.get`. -/
def mapGet (m : List (TieKey × ℕ)) (k : TieKey) : Option ℕ :=
  match m with
  | [] => none
  | p :: ps => if p.1 = k then some p.2 else mapGet ps k

/-- JS `Map.delete`. -/
def mapErase (m : List (TieKey × ℕ)) (k : TieKey) : List (TieKey × ℕ) :=
  m.filter (fun p => decide (p.1 ≠ k))

/-- JS `Map.set` (replace any existing binding). -/
def mapSet (m : List (TieKey × ℕ)) (k : TieKey) (v : ℕ) : List (TieKey × ℕ) :=
  (k, v) :: mapErase m k

/-- `merged[origIdx].duration += note.duration`. -/
def absorbDuration (d : ℚ) (m : MergedNote) : MergedNote :=
  { m with duration := m.duration + d }

/-- In-place update of one list position (JS array element mutation). -/
def modifyIdx : List MergedNote → ℕ → (MergedNote → MergedNote) → List MergedNote
  | [], _, _ => []
  | x :: xs, 0, f => f x :: xs
  | x :: xs, i + 1, f => x :: modifyIdx xs i f

/-- One iteration of the tie-merging loop (source lines 527-577).
State: the `merged` output array and the `tieMap` from key to the index
of the still-open representative event. -/
def mergeStep (st : List MergedNote × List (TieKey × ℕ)) (n : RawNote) :
    List MergedNote × List (TieKey × ℕ) :=
  if n.isGrace then (st.1 ++ [cleanNote n], st.2)
  else
    match mapGet st.2 (tieKey n) with
    | some idx =>
      if n.tieStop then
        let merged2 := modifyIdx st.1 idx (absorbDuration n.duration)
        if n.tieStart then (merged2, st.2) else (merged2, mapErase st.2 (tieKey n))
      else
        (st.1 ++ [cleanNote n],
         if n.tieStart then mapSet st.2 (tieKey n) st.1.length else st.2)
    | none =>
      (st.1 ++ [cleanNote n],
       if n.tieStart then mapSet st.2 (tieKey n) st.1.length else st.2)

def mergeTiesAux (st : List MergedNote × List (TieKey × ℕ)) :
    List RawNote → List MergedNote × List (TieKey × ℕ)
  | [] => st
  | n :: ns => mergeTiesAux (mergeStep st n) ns

/-- The tie resolver: map-based merging of chained tied notes. -/
def mergeTies (l : List RawNote) : List MergedNote :=
  (mergeTiesAux ([], []) l).1

/-- A direct child of a `<measure>` as dispatched on `tagName`; the
payload of `backup`/`forward` is the `parseFloat` of their `<duration>`
(`none` = element missing or NaN).  `other` covers every tag the loop
ignores. -/
inductive MeasureElem where
  | backup (d : Option ℚ)
  | forward (d : Option ℚ)
  | note (n : NoteElem)
  | other
deriving DecidableEq, Repr

/-- The per-measure mutable state of the reconstruction loop.
`chordMinDuration = none` models the `Infinity` sentinel.  `notes` is the
shared output array the measure loop pushes into. -/
structure WalkState where
  cursor : ℚ
  maxCursor : ℚ
  lastNoteStart : ℚ
  prevWasRest : Bool
  voiceCursors : List ((ℤ × ℤ) × ℚ)
  currentStaff : Option ℤ
  currentVoice : Option (ℤ × ℤ)
  inChord : Bool
  chordMinDuration : Option ℚ
  chordStartTime : ℚ
  notes : List RawNote
deriving DecidableEq, Repr

def initWalk (acc : List RawNote) : WalkState :=
  ⟨0, 0, 0, false, [], none, none, false, none, 0, acc⟩

/-- `voiceCursors[key]` lookup (the key is the `staff-voice` template
string, injectively represented as the pair). -/
def vcGet (m : List ((ℤ × ℤ) × ℚ)) (k : ℤ × ℤ) : Option ℚ :=
  match m with
  | [] => none
  | p :: ps => if p.1 = k then some p.2 else vcGet ps k

/-- `voiceCursors[key] = v`. -/
def vcSet (m : List ((ℤ × ℤ) × ℚ)) (k : ℤ × ℤ) (v : ℚ) : List ((ℤ × ℤ) × ℚ) :=
  (k, v) :: m.filter (fun p => decide (p.1 ≠ k))

/-- The pending-chord cursor correction
`if (inChord && chordMinDuration !== Infinity) { adjusted = chordStartTime
+ chordMinDuration; if (adjusted < cursor) cursor = adjusted }`. -/
def chordAdjustCursor (s : WalkState) : ℚ :=
  if s.inChord then
    match s.chordMinDuration with
    | some m => if s.chordStartTime + m < s.cursor then s.chordStartTime + m else s.cursor
    | none => s.cursor
  else s.cursor

/-- `backup` handling (source lines 249-278): save the outgoing voice's
(chord-adjusted) cursor, move backward clamping at zero, reset the
voice/chord tracking. -/
def stepBackup (divisions : ℚ) (s : WalkState) (d : Option ℚ) : WalkState :=
  let s1 :=
    match s.currentVoice with
    | some cv =>
      let c := chordAdjustCursor s
      { s with cursor := c, voiceCursors := vcSet s.voiceCursors cv c }
    | none => s
  let c2 :=
    match d with
    | some q =>
      if 0 < divisions then
        let dur := q / divisions
        if 0 < dur then (if s1.cursor - dur < 0 then 0 else s1.cursor - dur) else s1.cursor
      else s1.cursor
    | none => s1.cursor
  { s1 with cursor := c2, prevWasRest := false, currentStaff := none,
            currentVoice := none, inChord := false, chordMinDuration := none }

/-- `forward` handling (source lines 281-293). -/
def stepForward (divisions : ℚ) (s : WalkState) (d : Option ℚ) : WalkState :=
  let c2 :=
    match d with
    | some q =>
      if 0 < divisions then
        let dur := q / divisions
        if 0 < dur then s.cursor + dur else s.cursor
      else s.cursor
    | none => s.cursor
  { s with cursor := c2, inChord := false, chordMinDuration := none }

/-- `noteEl.querySelector('staff') ? parseInt(...) || 1 : 1`. -/
def staffOf (n : NoteElem) : ℤ :=
  match n.staffRaw with
  | none => 1
  | some z => orOneZ z

/-- `noteEl.querySelector('voice') ? parseInt(...) || 1 : 1`. -/
def voiceOf (n : NoteElem) : ℤ :=
  match n.voiceRaw with
  | none => 1
  | some z => orOneZ z

/-- Pitch resolution: requires the `<pitch>` element with truthy
`step` and `octave` text (the empty string is falsy in JS). -/
def resolvePitch (n : NoteElem) : Option (String × String × Option ℤ) :=
  match n.pitch with
  | none => none
  | some pd =>
    match pd.step, pd.octave with
    | some st, some oc => if st = "" ∨ oc = "" then none else some (st, oc, pd.alter)
    | _, _ => none

/-- `step + ('#' | 'b' | '') + octave`. -/
def pitchName (st oc : String) (alter : Option ℤ) : String :=
  st ++ (if alter = some 1 then "#" else if alter = some (-1) then "b" else "") ++ oc

/-- The `velocityMap` and its `|| 0.7` default. -/
def velocityOf (n : NoteElem) : ℚ :=
  match n.dynamics with
  | none => 7/10
  | some tag =>
    if tag = "ppp" then 1/5
    else if tag = "pp" then 3/10
    else if tag = "p" then 2/5
    else if tag = "mp" then 1/2
    else if tag = "mf" then 3/5
    else if tag = "f" then 3/4
    else if tag = "ff" then 17/20
    else if tag = "fff" then 19/20
    else 7/10

/-- `tieStart` from either a `<tie type="start">` or a
`<notations><tied type="start">` marker. -/
def tieStartOf (n : NoteElem) : Bool :=
  n.tieTypes.contains "start" || n.tiedTypes.contains "start"

def tieStopOf (n : NoteElem) : Bool :=
  n.tieTypes.contains "stop" || n.tiedTypes.contains "stop"

/-- The grace-note branch (source lines 305-341): emit a short soft event
just before the current position; the walk state is otherwise untouched. -/
def graceStep (mst : ℚ) (pIdx mIdx : ℕ) (s : WalkState) (n : NoteElem) : WalkState :=
  match resolvePitch n with
  | none => s
  | some (st, oc, alter) =>
    { s with notes := s.notes ++ [{
        pitch := pitchName st oc alter,
        time := max 0 (mst + s.cursor - 1/8),
        duration := 1/8, velocity := 3/5, measureIndex := mIdx,
        tieStart := false, tieStop := false, partIndex := pIdx,
        staff := staffOf n, voice := 1, isGrace := true }] }

/-- Voice switching (source lines 358-377): save the outgoing voice's
chord-adjusted cursor, restore the incoming voice's cursor if it has one. -/
def switchVoice (s : WalkState) (vk : ℤ × ℤ) : WalkState :=
  match s.currentVoice with
  | some cv =>
    if cv ≠ vk then
      let c := chordAdjustCursor s
      let vcs := vcSet s.voiceCursors cv c
      let c2 := match vcGet vcs vk with | some q => q | none => c
      { s with cursor := c2, voiceCursors := vcs,
               inChord := false, chordMinDuration := none }
    else s
  | none => s

/-- `currentStaff = noteStaff; currentVoice = voiceKey` (source lines 378-379). -/
def setActiveVoice (s : WalkState) (vk : ℤ × ℤ) : WalkState :=
  { s with currentStaff := some vk.1, currentVoice := some vk }

/-- The rest branch (source lines 382-393). -/
def restStep (s : WalkState) (vk : ℤ × ℤ) (isChord : Bool) (dur : ℚ) : WalkState :=
  let s3 :=
    if ¬isChord ∧ 0 < dur then
      { s with cursor := s.cursor + dur,
               maxCursor := max s.maxCursor (s.cursor + dur),
               voiceCursors := vcSet s.voiceCursors vk (s.cursor + dur) }
    else s
  { s3 with inChord := false, chordMinDuration := none, prevWasRest := true }

/-- Closing an open chord on a new note (source lines 420-428): apply the
minimum-duration correction when it rewinds the cursor, propagating into
the active voice's saved cursor. -/
def chordClose (s : WalkState) (vk : ℤ × ℤ) : WalkState :=
  if s.inChord then
    match s.chordMinDuration with
    | some m =>
      if s.chordStartTime + m < s.cursor then
        { s with cursor := s.chordStartTime + m,
                 voiceCursors := vcSet s.voiceCursors vk (s.chordStartTime + m) }
      else s
    | none => s
  else s

/-- The chord-member branch (source lines 407-412 and emission). -/
def chordMemberStep (mst : ℚ) (pIdx mIdx : ℕ) (s : WalkState) (vk : ℤ × ℤ)
    (n : NoteElem) (dur : ℚ) (st oc : String) (alter : Option ℤ) : WalkState :=
  { s with inChord := true,
           chordMinDuration := some (match s.chordMinDuration with
             | none => dur
             | some m => min m dur),
           prevWasRest := false,
           notes := s.notes ++ [{
             pitch := pitchName st oc alter,
             time := mst + s.lastNoteStart,
             duration := if 0 < dur then dur else 1/4,
             velocity := velocityOf n, measureIndex := mIdx,
             tieStart := tieStartOf n, tieStop := tieStopOf n,
             partIndex := pIdx, staff := vk.1, voice := vk.2,
             isGrace := false }] }

/-- The new-note branch (source lines 413-441 and emission): close any open
chord, then advance the cursor and emit at the pre-advance position. -/
def newNoteStep (mst : ℚ) (pIdx mIdx : ℕ) (s : WalkState) (vk : ℤ × ℤ)
    (n : NoteElem) (dur : ℚ) (st oc : String) (alter : Option ℤ) : WalkState :=
  let s3 := chordClose s vk
  { s3 with inChord := false, chordMinDuration := some dur,
            chordStartTime := s3.cursor,
            lastNoteStart := s3.cursor,
            cursor := s3.cursor + dur,
            maxCursor := max s3.maxCursor (s3.cursor + dur),
            voiceCursors := vcSet s3.voiceCursors vk (s3.cursor + dur),
            prevWasRest := false,
            notes := s3.notes ++ [{
              pitch := pitchName st oc alter,
              time := mst + s3.cursor,
              duration := if 0 < dur then dur else 1/4,
              velocity := velocityOf n, measureIndex := mIdx,
              tieStart := tieStartOf n, tieStop := tieStopOf n,
              partIndex := pIdx, staff := vk.1, voice := vk.2,
              isGrace := false }] }

/-- `<note>` handling (source lines 296-505). -/
def stepNote (divisions mst : ℚ) (pIdx mIdx : ℕ) (s : WalkState) (n : NoteElem) :
    WalkState :=
  if n.isCue then s
  else if n.isGrace then graceStep mst pIdx mIdx s n
  else
    let dur := getDurationInQuarters divisions n
    let vk : ℤ × ℤ := (staffOf n, voiceOf n)
    let s2 := setActiveVoice (switchVoice s vk) vk
    if n.isRest then restStep s2 vk n.isChord dur
    else
      match resolvePitch n with
      | none => s2
      | some (st, oc, alter) =>
        if n.isChord ∧ s2.prevWasRest = false then
          chordMemberStep mst pIdx mIdx s2 vk n dur st oc alter
        else newNoteStep mst pIdx mIdx s2 vk n dur st oc alter

/-- Dispatch on the child's `tagName`. -/
def stepElem (divisions mst : ℚ) (pIdx mIdx : ℕ) (s : WalkState) :
    MeasureElem → WalkState
  | .backup d => stepBackup divisions s d
  | .forward d => stepForward divisions s d
  | .note n => stepNote divisions mst pIdx mIdx s n
  | .other => s

/-- The `for (i in children)` loop over one measure. -/
def runElems (divisions mst : ℚ) (pIdx mIdx : ℕ) (s : WalkState) :
    List MeasureElem → WalkState
  | [] => s
  | e :: es => runElems divisions mst pIdx mIdx (stepElem divisions mst pIdx mIdx s e) es

/-- A `<measure>`: the optional `attributes > divisions` override
(`parseFloat`; `none` = missing or NaN), the optional `attributes > time`
override (`beats`, `beat-type` as `parseInt` values, NaN folded into 0,
which the `|| current` fallback treats like NaN), and the child list. -/
structure Measure where
  divisionsDecl : Option ℚ := none
  timeDecl : Option (Option ℤ × Option ℤ) := none
  elems : List MeasureElem := []
deriving DecidableEq, Repr

structure Part where
  measures : List Measure := []
deriving DecidableEq, Repr

/-- The parsed document: the document-level `divisions` query result
(`parseFloat`, with `none` = element missing or NaN — both are falsy and
default to 1 exactly like a parsed 0), the first `<time>` element's
`beats`/`beat-type`, and the parts.  The global `querySelectorAll('note')`
scan is recovered from the parts (notes occur only inside measures). -/
structure MusicDoc where
  docDivisions : Option ℚ := none
  docTime : Option (Option ℤ × Option ℤ) := none
  parts : List Part := []
deriving DecidableEq, Repr

/-- `parseFloat(divisionsEl.textContent) || 1`, defaulting to 1. -/
def initialDivisions (d : MusicDoc) : ℚ :=
  match d.docDivisions with
  | none => 1
  | some q => if q = 0 then 1 else q

/-- `beats = parseInt(...) || 4` from the first `<time>` element, default 4. -/
def initialBeats (d : MusicDoc) : ℤ :=
  match d.docTime with
  | none => 4
  | some (b, _) => match b with | none => 4 | some z => if z = 0 then 4 else z

def initialBeatType (d : MusicDoc) : ℤ :=
  match d.docTime with
  | none => 4
  | some (_, bt) => match bt with | none => 4 | some z => if z = 0 then 4 else z

def elemNote? : MeasureElem → Option NoteElem
  | .note n => some n
  | _ => none

/-- `doc.querySelectorAll('note')` in document order. -/
def allNotesOf (d : MusicDoc) : List NoteElem :=
  d.parts.flatMap (fun p => p.measures.flatMap (fun m => m.elems.filterMap elemNote?))

/-- Per-part persistent state across measures. -/
structure MeasCtx where
  mst : ℚ
  divisions : ℚ
  beats : ℤ
  beatType : ℤ
deriving DecidableEq, Repr

def measDivisions (c : MeasCtx) (m : Measure) : ℚ :=
  match m.divisionsDecl with
  | some q => if 0 < q then q else c.divisions
  | none => c.divisions

def measBeats (c : MeasCtx) (m : Measure) : ℤ :=
  match m.timeDecl with
  | none => c.beats
  | some (b, _) => match b with | none => c.beats | some z => if z = 0 then c.beats else z

def measBeatType (c : MeasCtx) (m : Measure) : ℤ :=
  match m.timeDecl with
  | none => c.beatType
  | some (_, bt) =>
    match bt with | none => c.beatType | some z => if z = 0 then c.beatType else z

/-- One `measures.forEach` iteration: apply overrides, walk the children
with a fresh per-measure state, advance `measureStartTime` by
`max(measureDuration, maxCursor)`. -/
def runMeasure (pIdx mIdx : ℕ) (c : MeasCtx) (acc : List RawNote) (m : Measure) :
    MeasCtx × List RawNote :=
  let divs := measDivisions c m
  let b := measBeats c m
  let bt := measBeatType c m
  let md : ℚ := ((b * 4 : ℤ) : ℚ) / ((bt : ℤ) : ℚ)
  let s := runElems divs c.mst pIdx mIdx (initWalk acc) m.elems
  (⟨c.mst + max md s.maxCursor, divs, b, bt⟩, s.notes)

def runMeasures (pIdx mIdx : ℕ) (c : MeasCtx) (acc : List RawNote) :
    List Measure → List RawNote
  | [] => acc
  | m :: ms =>
    let r := runMeasure pIdx mIdx c acc m
    runMeasures pIdx (mIdx + 1) r.1 r.2 ms

def runParts (pIdx : ℕ) (g : ℚ) (b bt : ℤ) (acc : List RawNote) :
    List Part → List RawNote
  | [] => acc
  | p :: ps =>
    runParts (pIdx + 1) g b bt (runMeasures pIdx 0 ⟨0, g, b, bt⟩ acc p.measures) ps

/-- Non-decreasing onset order, the comparator `(a, b) => a.time - b.time`. -/
def noteLE (a b : RawNote) : Prop := a.time ≤ b.time

instance : DecidableRel noteLE := fun a b => inferInstanceAs (Decidable (a.time ≤ b.time))

instance : IsTotal RawNote noteLE := ⟨fun a b => le_total a.time b.time⟩

instance : IsTrans RawNote noteLE := ⟨fun _ _ _ h₁ h₂ => le_trans h₁ h₂⟩

/-- `notes.sort((a, b) => a.time - b.time)`: `Array.prototype.sort` is
guaranteed stable, modelled as an insertion sort (stable for the
non-strict comparator). -/
def sortNotes (l : List RawNote) : List RawNote := List.insertionSort noteLE l

/-- The full parsing pipeline `parseNotesFromMusicXML` (source lines
73-580): divisions and meter resolution, the per-part measure walk,
the stable sort by onset, and the tie merge. -/
def parseNotesFromMusicXML (doc : MusicDoc) : List MergedNote :=
  let g := inferDivisions (initialDivisions doc) (allNotesOf doc)
  let emitted := runParts 0 g (initialBeats doc) (initialBeatType doc) [] doc.parts
  mergeTies (sortNotes emitted)

/-- Constants from `constants.js`. -/
def MIN_TEMPO : ℚ := 20

def MAX_TEMPO : ℚ := 300

def DEFAULT_TEMPO : ℚ := 120

/-- A `Tone.Transport.schedule` handle for one note. -/
structure ScheduledEvent where
  pitch : String
  atTime : ℚ
  durationSeconds : ℚ
  velocity : ℚ
deriving DecidableEq, Repr

/-- The hook's observable state: React state plus the refs and the
transport.  Wall-clock-only refs (`startTimeRef`) are not modelled;
elapsed time enters `updateTempo` as an explicit parameter. -/
structure PlayerState where
  isPlaying : Bool
  tempo : ℚ
  scheduled : List ScheduledEvent
  stopScheduledAt : Option ℚ
  transportStarted : Bool
  pauseTime : ℚ
  notesCache : List MergedNote
deriving DecidableEq, Repr

def initPlayer : PlayerState :=
  ⟨false, DEFAULT_TEMPO, [], none, false, 0, []⟩

/-- `schedulePlayback(notes, startOffset)` (source lines 602-674):
clear previous events, schedule each note at
`time * secondsPerQuarter - startOffset` skipping those before the
offset, and schedule the terminal auto-stop. -/
def schedulePlayback (s : PlayerState) (notes : List MergedNote) (startOffset : ℚ) :
    PlayerState :=
  let spq := 60 / s.tempo
  let evs := notes.filterMap (fun n =>
    if n.time * spq < startOffset then none
    else some ⟨n.pitch, n.time * spq - startOffset, n.duration * spq, n.velocity⟩)
  let stopAt :=
    match notes.getLast? with
    | some last => some ((last.time + last.duration) * spq - startOffset + 1/2)
    | none => none
  { s with scheduled := evs, stopScheduledAt := stopAt }

/-- `play(musicxml)` (source lines 677-710) after the awaited audio
initialization succeeded: guard on `isPlaying`, parse, cache the notes,
bail out on an empty result, otherwise schedule from 0 and start. -/
def play (s : PlayerState) (doc : MusicDoc) : PlayerState :=
  if s.isPlaying then s
  else
    let notes := parseNotesFromMusicXML doc
    let s1 := { s with notesCache := notes }
    if notes = [] then s1
    else
      let s2 := { s1 with pauseTime := 0 }
      let s3 := schedulePlayback s2 notes 0
      { s3 with transportStarted := true, isPlaying := true }

/-- `updateTempo(newTempo)` (source lines 739-755), the function exposed
as `setTempo`: store the tempo unconditionally, then if playing reschedule
from the elapsed position (`elapsed` = `Tone.now() - startTimeRef`). -/
def updateTempo (elapsed : ℚ) (s : PlayerState) (newTempo : ℚ) : PlayerState :=
  let s1 := { s with tempo := newTempo }
  if s1.isPlaying = true ∧ s1.notesCache ≠ [] then
    let s2 := schedulePlayback s1 s1.notesCache elapsed
    { s2 with transportStarted := true }
  else s1

/-!  Specification-side definitions (worded from the spec, to be compared
with the source translations above) and the predicates used to state the
claims.  -/

/-- Spec wording of the duration derivation: table value times the
closed-form dot series `2 - (1/2)^dots`, times the tuplet ratio; the
fallback `rawTicks / divisions` without the tuplet ratio. -/
def specDurationInQuarters (divisions : ℚ) (n : NoteElem) : ℚ :=
  match n.noteType.bind typeToQuarters with
  | some q => q * (2 - (1/2 : ℚ) ^ n.dots) * getTupletRatio n
  | none =>
    match n.rawDuration with
    | some r => if 0 < divisions ∧ 0 < r then r / divisions else 0
    | none => 0

/-- Spec wording of the divisions-scan eligibility: non-grace, non-chord,
non-rest, no time modification. -/
def scanEligible (n : NoteElem) : Bool :=
  !(n.isGrace || n.isChord || n.isRest) && !n.timeMod.isSome

/-- Spec wording of the per-note inference: for a recognized symbolic type
with a positive raw duration, the ratio `raw / expected` when it is `≥ 1`. -/
def inferOf (n : NoteElem) : Option ℚ :=
  match n.noteType, n.rawDuration with
  | some t, some r =>
    match typeToQuarters t with
    | some tq =>
      if 0 < r ∧ 0 < dotted tq n.dots ∧ 1 ≤ r / dotted tq n.dots then
        some (r / dotted tq n.dots)
      else none
    | none => none
  | _, _ => none

/-- Positive tuplet counts (after the `|| 1` coercion); trivially true
without a `<time-modification>`. -/
def tupletOKb (n : NoteElem) : Bool :=
  match n.timeMod with
  | some (some (a, nn)) => decide (0 < orOneZ a) && decide (0 < orOneZ nn)
  | _ => true

def elemOKb : MeasureElem → Bool
  | .note n => tupletOKb n
  | _ => true

/-- Every note of the document has positive tuplet counts, hence a
nonnegative derived duration. -/
def docOKb (d : MusicDoc) : Bool :=
  d.parts.all (fun p => p.measures.all (fun m => m.elems.all elemOKb))

/-- Nonnegativity of every time-like component of the measure-walk state. -/
def WalkInv (s : WalkState) : Prop :=
  0 ≤ s.cursor ∧ 0 ≤ s.lastNoteStart ∧ 0 ≤ s.chordStartTime ∧
  (∀ p ∈ s.voiceCursors, 0 ≤ p.2) ∧
  (∀ m, s.chordMinDuration = some m → 0 ≤ m) ∧ 0 ≤ s.maxCursor

/-- Membership in a tie chain for key `k`: a non-grace event with that key. -/
def chainSel (k : TieKey) (n : RawNote) : Bool :=
  !n.isGrace && decide (tieKey n = k)

/-- The continuation segments of a tie chain: every segment stops the
incoming tie; all but the last also start the next one. -/
def chainTail : List RawNote → Prop
  | [] => True
  | [r] => r.tieStop = true ∧ r.tieStart = false
  | r :: rs => r.tieStop = true ∧ r.tieStart = true ∧ chainTail rs

/-- All tie-map pointers are in range of the output array. -/
def mapRangeOK (st : List MergedNote × List (TieKey × ℕ)) : Prop :=
  ∀ p ∈ st.2, p.2 < st.1.length

/-- Output position `i` exists and no tie-map pointer targets it. -/
def guardedAt (st : List MergedNote × List (TieKey × ℕ)) (i : ℕ) : Prop :=
  i < st.1.length ∧ ∀ p ∈ st.2, p.2 ≠ i

/-- Output position `i` exists and only key `k` may point to it. -/
def guardedExcept (k : TieKey) (st : List MergedNote × List (TieKey × ℕ))
    (i : ℕ) : Prop :=
  i < st.1.length ∧ ∀ p ∈ st.2, p.1 ≠ k → p.2 ≠ i

/-- Open-chain state: key `k` points at position `i`, which holds `v`. -/
def PhaseB (k : TieKey) (st : List MergedNote × List (TieKey × ℕ)) (i : ℕ)
    (v : MergedNote) : Prop :=
  mapGet st.2 k = some i ∧ st.1[i]? = some v ∧ guardedExcept k st i ∧ mapRangeOK st

/-!  Concrete inputs used by witnesses and counterexamples.  -/

/-- A plain pitched note with only a raw tick duration. -/
def simpleNote (p : String) (d : ℚ) (chord : Bool) : NoteElem :=
  { rawDuration := some d, isChord := chord,
    pitch := some ⟨some p, some "4", none⟩ }

def simpleRest (d : ℚ) : NoteElem := { isRest := true, rawDuration := some d }

/-- A plain note carrying an explicit `<voice>` number. -/
def voiceNote (p : String) (d : ℚ) (v : ℤ) : NoteElem :=
  { rawDuration := some d, pitch := some ⟨some p, some "4", none⟩,
    voiceRaw := some v }

/-- A quarter note inside a time modification with `actual-notes = 1`,
`normal-notes = -1` (a value `parseInt` can produce): tuplet ratio `-1`. -/
def negTupletNote : NoteElem :=
  { noteType := some "quarter", timeMod := some (some (1, -1)),
    pitch := some ⟨some "C", some "4", none⟩ }

/-- Document whose second note ends up with a negative onset: the first
note has derived duration `-1`, driving the cursor to `-1`. -/
def cexNegOnsetDoc : MusicDoc :=
  { docDivisions := some 1,
    parts := [⟨[{ elems := [.note negTupletNote, .note (simpleNote "D" 1 false)] }]⟩] }

/-- A document with no parts: the pipeline yields zero merged events. -/
def exEmptyDoc : MusicDoc := { docDivisions := none, docTime := none, parts := [] }

/-- A note with neither a symbolic type nor a raw duration: derived
duration 0. -/
def zeroDurNote : NoteElem := { pitch := some ⟨some "D", some "5", none⟩ }

/-- A grace note with a resolvable pitch. -/
def exGraceNote : NoteElem :=
  { isGrace := true, pitch := some ⟨some "B", some "3", none⟩ }

/-- Raw events for the tie-chain witness: a three-segment chain on key
`("A4", 1, 0, 1)` with durations 1, 2, 3, interleaved with unrelated
events (another pitch, and a same-pitch event in another voice). -/
def wTieS1 : RawNote := ⟨"A4", 0, 1, 7/10, 0, true, false, 0, 1, 1, false⟩

def wTieU1 : RawNote := ⟨"B4", 1/2, 1, 7/10, 0, false, false, 0, 1, 1, false⟩

def wTieS2 : RawNote := ⟨"A4", 1, 2, 7/10, 0, true, true, 0, 1, 1, false⟩

def wTieU2 : RawNote := ⟨"A4", 2, 1, 7/10, 0, false, false, 0, 1, 2, false⟩

def wTieS3 : RawNote := ⟨"A4", 3, 3, 7/10, 1, false, true, 0, 1, 1, false⟩

def wTieList : List RawNote := [wTieS1, wTieU1, wTieS2, wTieU2, wTieS3]

/-- A whole-note document (also the spec §8 example scenario). -/
def exWholeDoc : MusicDoc :=
  { docDivisions := some 1,
    parts := [⟨[{ elems := [.note { noteType := some "whole", rawDuration := some 4,
                                    pitch := some ⟨some "C", some "4", none⟩ }] }]⟩] }

/-!  Helper lemmas.  -/

theorem dottedGo_eq (k : ℕ) : ∀ d dv : ℚ, dottedGo d dv k = d + 2 * dv * (1 - (1/2 : ℚ) ^ k) := by
  induction k with
  | zero => intro d dv; simp [dottedGo]
  | succ k ih =>
    intro d dv
    rw [dottedGo, ih, pow_succ]
    ring

theorem dotted_eq (b : ℚ) (k : ℕ) : dotted b k = b * (2 - (1/2 : ℚ) ^ k) := by
  rw [dotted, dottedGo_eq]
  ring

/-!  C6: duration derivation.  -/

theorem getDur_eq_specDur (divs : ℚ) (n : NoteElem) :
    getDurationInQuarters divs n = specDurationInQuarters divs n := by
  unfold getDurationInQuarters specDurationInQuarters
  cases hnt : n.noteType with
  | none => simp
  | some t =>
    cases htq : typeToQuarters t with
    | none => simp [htq]
    | some q => simp [htq, dotted_eq]

/-- C6: for every note or rest element, a recognized symbolic type yields
the table value extended per dot (closed form of the dot-halving series)
times the tuplet ratio normalNotes/actualNotes; with no recognized type
the duration is rawTicks/divisions and the tuplet ratio is not applied to
that fallback (changing the time modification does not change it). -/
theorem duration_derivation :
    (∀ (divs : ℚ) (n : NoteElem),
        getDurationInQuarters divs n = specDurationInQuarters divs n) ∧
    (∀ (divs : ℚ) (n : NoteElem) (tm : Option (Option (ℤ × ℤ))),
        n.noteType.bind typeToQuarters = none →
        getDurationInQuarters divs { n with timeMod := tm } =
          getDurationInQuarters divs n) := by
  constructor
  · exact getDur_eq_specDur
  · intro divs n tm h
    unfold getDurationInQuarters
    cases hnt : n.noteType with
    | none => simp
    | some t =>
      have htq : typeToQuarters t = none := by
        rw [hnt] at h
        simpa using h
      simp [htq]

theorem duration_derivation_witness :
    getDurationInQuarters 1 { rawDuration := some 3, timeMod := some (some (3, 2)) } =
      getDurationInQuarters 1 { rawDuration := some 3 } :=
  duration_derivation.2 1 { rawDuration := some 3 } (some (some (3, 2))) rfl

/-!  C3: divisions inference.  -/

/-- C3: the effective divisions starts from the document-level declared
value (default 1); the document's notes are scanned in order, skipping
grace, chord, rest and time-modified notes; the first eligible note with
a recognized symbolic type and positive raw duration whose ratio
raw/expected is at least 1 supplies the effective divisions, and notes
whose ratio falls below 1 are passed over. -/
theorem divisions_inference_spec :
    (∀ (g : ℚ) (ns : List NoteElem),
        inferDivisions g ns = ((ns.filter scanEligible).findSome? inferOf).getD g) ∧
    (∀ (t : Option (Option ℤ × Option ℤ)) (ps : List Part),
        initialDivisions ⟨none, t, ps⟩ = 1) := by
  constructor
  · intro g ns
    induction ns with
    | nil => simp [inferDivisions]
    | cons n ns ih =>
      by_cases h1 : n.isGrace ∨ n.isChord ∨ n.isRest
      · have hse : scanEligible n = false := by
          rcases h1 with h | h | h <;> simp [scanEligible, h]
        rw [inferDivisions]
        simp only [h1, if_true, List.filter_cons, hse]
        simpa using ih
      · by_cases h2 : n.timeMod.isSome
        · have hse : scanEligible n = false := by
            simp [scanEligible, h2]
          rw [inferDivisions]
          simp only [h1, if_false, h2, if_true, List.filter_cons, hse]
          simpa using ih
        · have hse : scanEligible n = true := by
            push_neg at h1
            simp [scanEligible, h1.1, h1.2.1, h1.2.2, h2]
          rw [inferDivisions]
          simp only [h1, if_false, h2, if_true, List.filter_cons, hse,
            List.findSome?_cons]
          cases hnt : n.noteType with
          | none => simpa [inferOf, hnt] using ih
          | some t =>
            cases hrd : n.rawDuration with
            | none => simpa [inferOf, hnt, hrd] using ih
            | some r =>
              cases htq : typeToQuarters t with
              | none => simpa [inferOf, hnt, hrd, htq] using ih
              | some tq =>
                simp only [inferOf, hnt, hrd, htq]
                by_cases hpos : 0 < r ∧ 0 < dotted tq n.dots
                · by_cases hge : 1 ≤ r / dotted tq n.dots
                  · simp [hpos, hge, hpos.1, hpos.2]
                  · simpa [hpos, hge, hpos.1, hpos.2] using ih
                · have : ¬(0 < r ∧ 0 < dotted tq n.dots ∧ 1 ≤ r / dotted tq n.dots) := by
                    intro hc
                    exact hpos ⟨hc.1, hc.2.1⟩
                  simpa [hpos, this] using ih
  · intro t ps
    rfl

/-!  C8: tempo clamping.  -/

/-- C8 counterexample: `setTempo` (the exposed `updateTempo`) called with
1000 stores 1000 as the tempo, although 1000 lies outside
[MIN_TEMPO, MAX_TEMPO] = [20, 300] — no clamping happens. -/
theorem setTempo_clamp_counterexample :
    (updateTempo 0 initPlayer 1000).tempo = 1000 ∧
    ¬(MIN_TEMPO ≤ (1000 : ℚ) ∧ (1000 : ℚ) ≤ MAX_TEMPO) := by
  constructor
  · rfl
  · intro hc
    have := hc.2
    norm_num [MAX_TEMPO] at this

/-- C8 amended: the exposed `setTempo` operation stores exactly the bpm
it is given, with no clamping; the range [MIN_TEMPO, MAX_TEMPO] is only a
UI slider bound, and a bpm outside it becomes the effective tempo. -/
theorem setTempo_stores_unclamped :
    (∀ (e : ℚ) (s : PlayerState) (bpm : ℚ), (updateTempo e s bpm).tempo = bpm) ∧
    (∃ bpm : ℚ, ¬(MIN_TEMPO ≤ bpm ∧ bpm ≤ MAX_TEMPO) ∧
      ∀ (e : ℚ) (s : PlayerState), (updateTempo e s bpm).tempo = bpm) := by
  have h : ∀ (e : ℚ) (s : PlayerState) (bpm : ℚ), (updateTempo e s bpm).tempo = bpm := by
    intro e s bpm
    by_cases hc : s.isPlaying = true ∧ s.notesCache ≠ []
    · simp [updateTempo, schedulePlayback, hc]
    · simp [updateTempo, schedulePlayback, hc]
  refine ⟨h, 1000, ?_, fun e s => h e s 1000⟩
  intro hc
  have := hc.2
  norm_num [MAX_TEMPO] at this

/-!  C9: empty-result no-op.  -/

/-- C9: when the full parse pipeline yields zero merged note events,
`play` returns without scheduling events, without starting the transport
and without changing `isPlaying` (and, being a total function, without
raising an exception). -/
theorem play_empty_noop (s : PlayerState) (doc : MusicDoc)
    (h : parseNotesFromMusicXML doc = []) :
    (play s doc).isPlaying = s.isPlaying ∧
    (play s doc).scheduled = s.scheduled ∧
    (play s doc).transportStarted = s.transportStarted ∧
    (play s doc).stopScheduledAt = s.stopScheduledAt := by
  unfold play
  rw [h]
  split <;> simp

theorem play_empty_noop_witness :
    (play initPlayer exEmptyDoc).isPlaying = initPlayer.isPlaying ∧
    (play initPlayer exEmptyDoc).scheduled = initPlayer.scheduled ∧
    (play initPlayer exEmptyDoc).transportStarted = initPlayer.transportStarted ∧
    (play initPlayer exEmptyDoc).stopScheduledAt = initPlayer.stopScheduledAt :=
  play_empty_noop initPlayer exEmptyDoc rfl

/-!  C10: implicit zero-duration fallback.  -/

/-- C10: a non-rest, non-grace, non-chord note with a resolvable pitch
whose derived duration is 0 (no recognized symbolic type, no positive raw
tick duration) is still emitted, with duration exactly 1/4 quarter note,
while the voice cursor does not move. -/
theorem zero_duration_fallback (divs mst : ℚ) (pIdx mIdx : ℕ) (s : WalkState)
    (n : NoteElem) (st oc : String) (alter : Option ℤ)
    (hcue : n.isCue = false) (hgr : n.isGrace = false) (hch : n.isChord = false)
    (hrest : n.isRest = false) (hp : resolvePitch n = some (st, oc, alter))
    (htype : ∀ t, n.noteType = some t → typeToQuarters t = none)
    (hraw : ∀ r, n.rawDuration = some r → r ≤ 0 ∨ divs ≤ 0)
    (hcv : s.currentVoice = none) (hic : s.inChord = false) :
    (stepElem divs mst pIdx mIdx s (.note n)).notes =
      s.notes ++ [⟨pitchName st oc alter, mst + s.cursor, 1/4, velocityOf n, mIdx,
                   tieStartOf n, tieStopOf n, pIdx, staffOf n, voiceOf n, false⟩] ∧
    (stepElem divs mst pIdx mIdx s (.note n)).cursor = s.cursor := by
  have hguard : ∀ r, n.rawDuration = some r → ¬(0 < divs ∧ 0 < r) := by
    intro r hr hc
    rcases hraw r hr with h | h
    · exact absurd hc.2 (not_lt.mpr h)
    · exact absurd hc.1 (not_lt.mpr h)
  have hd : getDurationInQuarters divs n = 0 := by
    unfold getDurationInQuarters
    cases hnt : n.noteType with
    | none =>
      cases hrd : n.rawDuration with
      | none => simp
      | some r => simp [hguard r hrd]
    | some t =>
      cases hrd : n.rawDuration with
      | none => simp [htype t hnt]
      | some r => simp [htype t hnt, hguard r hrd]
  show (stepNote divs mst pIdx mIdx s n).notes = _ ∧ (stepNote divs mst pIdx mIdx s n).cursor = _
  unfold stepNote
  simp [hcue, hgr, hch, hrest, hp, hcv, hic, hd, newNoteStep, chordClose,
    setActiveVoice, switchVoice]

/-!  Nonnegativity of derived durations and the walk invariant.  -/

theorem typeToQuarters_pos (t : String) (q : ℚ) (h : typeToQuarters t = some q) :
    0 < q := by
  unfold typeToQuarters at h
  split_ifs at h <;>
    try (injection h with h2; rw [← h2]; norm_num)

theorem dotted_nonneg (b : ℚ) (k : ℕ) (hb : 0 ≤ b) : 0 ≤ dotted b k := by
  rw [dotted_eq]
  have hpow : (1/2 : ℚ) ^ k ≤ 1 := pow_le_one₀ (by norm_num) (by norm_num)
  have : (0 : ℚ) ≤ 2 - (1/2 : ℚ) ^ k := by linarith
  exact mul_nonneg hb this

theorem ratio_nonneg (n : NoteElem) (h : tupletOKb n = true) : 0 ≤ getTupletRatio n := by
  unfold getTupletRatio
  unfold tupletOKb at h
  cases hm : n.timeMod with
  | none => norm_num
  | some inner =>
    cases inner with
    | none => norm_num
    | some p =>
      obtain ⟨a, nn⟩ := p
      rw [hm] at h
      simp only [Bool.and_eq_true, decide_eq_true_eq] at h
      have ha : (0 : ℚ) < (orOneZ a : ℚ) := by exact_mod_cast h.1
      have hn : (0 : ℚ) < (orOneZ nn : ℚ) := by exact_mod_cast h.2
      positivity

theorem durq_nonneg (divs : ℚ) (n : NoteElem) (h : tupletOKb n = true) :
    0 ≤ getDurationInQuarters divs n := by
  rw [getDur_eq_specDur]
  unfold specDurationInQuarters
  cases hb : n.noteType.bind typeToQuarters with
  | some q =>
    obtain ⟨t, hnt, htq⟩ := Option.bind_eq_some.mp hb
    have hq : 0 < q := typeToQuarters_pos t q htq
    have hpow : (1/2 : ℚ) ^ n.dots ≤ 1 := pow_le_one₀ (by norm_num) (by norm_num)
    have h2 : (0 : ℚ) ≤ 2 - (1/2 : ℚ) ^ n.dots := by linarith
    exact mul_nonneg (mul_nonneg hq.le h2) (ratio_nonneg n h)
  | none =>
    cases hrd : n.rawDuration with
    | none => norm_num
    | some r =>
      dsimp only
      split_ifs with hc
      · exact div_nonneg hc.2.le hc.1.le
      · norm_num

theorem vcSet_nonneg {m : List ((ℤ × ℤ) × ℚ)} {k : ℤ × ℤ} {v : ℚ}
    (hm : ∀ p ∈ m, 0 ≤ p.2) (hv : 0 ≤ v) : ∀ p ∈ vcSet m k v, 0 ≤ p.2 := by
  intro p hp
  unfold vcSet at hp
  rcases List.mem_cons.mp hp with h | h
  · rw [h]
    exact hv
  · exact hm p (List.mem_of_mem_filter h)

theorem vcGet_nonneg {m : List ((ℤ × ℤ) × ℚ)} {k : ℤ × ℤ} {q : ℚ}
    (hm : ∀ p ∈ m, 0 ≤ p.2) (h : vcGet m k = some q) : 0 ≤ q := by
  induction m with
  | nil => simp [vcGet] at h
  | cons p ps ih =>
    unfold vcGet at h
    split_ifs at h with hk
    · cases h
      exact hm p (by simp)
    · exact ih (fun r hr => hm r (by simp [hr])) h

theorem chordAdjust_nonneg {s : WalkState} (hs : WalkInv s) :
    0 ≤ chordAdjustCursor s := by
  obtain ⟨h1, h2, h3, h4, h5, h6⟩ := hs
  unfold chordAdjustCursor
  split_ifs with hic
  · cases hm : s.chordMinDuration with
    | none => exact h1
    | some m =>
      dsimp only
      split_ifs with hlt
      · exact add_nonneg h3 (h5 m hm)
      · exact h1
  · exact h1

theorem walkInv_graceStep (mst : ℚ) (pIdx mIdx : ℕ) (s : WalkState) (n : NoteElem)
    (hs : WalkInv s) : WalkInv (graceStep mst pIdx mIdx s n) := by
  unfold graceStep
  cases h : resolvePitch n with
  | none => exact hs
  | some v => exact ⟨hs.1, hs.2.1, hs.2.2.1, hs.2.2.2.1, hs.2.2.2.2.1, hs.2.2.2.2.2⟩

theorem walkInv_switchVoice (s : WalkState) (vk : ℤ × ℤ) (hs : WalkInv s) :
    WalkInv (switchVoice s vk) := by
  obtain ⟨h1, h2, h3, h4, h5, h6⟩ := hs
  unfold switchVoice
  cases hcv : s.currentVoice with
  | none => exact ⟨h1, h2, h3, h4, h5, h6⟩
  | some cv =>
    dsimp only
    split_ifs with hne
    · have hc : 0 ≤ chordAdjustCursor s := chordAdjust_nonneg ⟨h1, h2, h3, h4, h5, h6⟩
      have hvcs : ∀ p ∈ vcSet s.voiceCursors cv (chordAdjustCursor s), 0 ≤ p.2 :=
        vcSet_nonneg h4 hc
      refine ⟨?_, h2, h3, hvcs, (by intro m hm; cases hm), h6⟩
      cases hg : vcGet (vcSet s.voiceCursors cv (chordAdjustCursor s)) vk with
      | none => exact hc
      | some q => exact vcGet_nonneg hvcs hg
    · exact ⟨h1, h2, h3, h4, h5, h6⟩

theorem walkInv_setActiveVoice (s : WalkState) (vk : ℤ × ℤ) (hs : WalkInv s) :
    WalkInv (setActiveVoice s vk) :=
  ⟨hs.1, hs.2.1, hs.2.2.1, hs.2.2.2.1, hs.2.2.2.2.1, hs.2.2.2.2.2⟩

theorem walkInv_restStep (s : WalkState) (vk : ℤ × ℤ) (ch : Bool) (dur : ℚ)
    (hs : WalkInv s) (hd : 0 ≤ dur) : WalkInv (restStep s vk ch dur) := by
  obtain ⟨h1, h2, h3, h4, h5, h6⟩ := hs
  unfold restStep
  dsimp only
  split_ifs with hc
  · exact ⟨add_nonneg h1 hd, h2, h3, vcSet_nonneg h4 (add_nonneg h1 hd),
      (by intro m hm; cases hm), le_max_of_le_left h6⟩
  · exact ⟨h1, h2, h3, h4, (by intro m hm; cases hm), h6⟩

theorem walkInv_chordClose (s : WalkState) (vk : ℤ × ℤ) (hs : WalkInv s) :
    WalkInv (chordClose s vk) := by
  obtain ⟨h1, h2, h3, h4, h5, h6⟩ := hs
  unfold chordClose
  split_ifs with hic
  · cases hm : s.chordMinDuration with
    | none => exact ⟨h1, h2, h3, h4, h5, h6⟩
    | some m =>
      dsimp only
      split_ifs with hlt
      · have hnn : 0 ≤ s.chordStartTime + m := add_nonneg h3 (h5 m hm)
        exact ⟨hnn, h2, h3, vcSet_nonneg h4 hnn,
          (by intro m1 hm1; injection hm1 with hm2; rw [← hm2]; exact h5 m hm), h6⟩
      · exact ⟨h1, h2, h3, h4, h5, h6⟩
  · exact ⟨h1, h2, h3, h4, h5, h6⟩

theorem walkInv_chordMemberStep (mst : ℚ) (pIdx mIdx : ℕ) (s : WalkState)
    (vk : ℤ × ℤ) (n : NoteElem) (dur : ℚ) (st oc : String) (alter : Option ℤ)
    (hs : WalkInv s) (hd : 0 ≤ dur) :
    WalkInv (chordMemberStep mst pIdx mIdx s vk n dur st oc alter) := by
  obtain ⟨h1, h2, h3, h4, h5, h6⟩ := hs
  have hval : 0 ≤ (match s.chordMinDuration with
      | none => dur
      | some m0 => min m0 dur) := by
    cases hcm : s.chordMinDuration with
    | none => exact hd
    | some m0 => exact le_min (h5 m0 hcm) hd
  refine ⟨h1, h2, h3, h4, ?_, h6⟩
  intro m hm
  have hm2 : (some (match s.chordMinDuration with
      | none => dur
      | some m0 => min m0 dur) : Option ℚ) = some m := hm
  injection hm2 with hm3
  rw [← hm3]
  exact hval

theorem walkInv_newNoteStep (mst : ℚ) (pIdx mIdx : ℕ) (s : WalkState)
    (vk : ℤ × ℤ) (n : NoteElem) (dur : ℚ) (st oc : String) (alter : Option ℤ)
    (hs : WalkInv s) (hd : 0 ≤ dur) :
    WalkInv (newNoteStep mst pIdx mIdx s vk n dur st oc alter) := by
  have h3 := walkInv_chordClose s vk hs
  obtain ⟨g1, g2, g3, g4, g5, g6⟩ := h3
  refine ⟨add_nonneg g1 hd, g1, g1, vcSet_nonneg g4 (add_nonneg g1 hd), ?_,
    le_max_of_le_left g6⟩
  intro m hm
  have hm2 : (some dur : Option ℚ) = some m := hm
  injection hm2 with hm3
  rw [← hm3]
  exact hd

theorem walkInv_stepBackup (divs : ℚ) (s : WalkState) (d : Option ℚ)
    (hs : WalkInv s) : WalkInv (stepBackup divs s d) := by
  obtain ⟨h1, h2, h3, h4, h5, h6⟩ := hs
  unfold stepBackup
  cases hcv : s.currentVoice with
  | none =>
    dsimp only
    refine ⟨?_, h2, h3, h4, (by intro m hm; cases hm), h6⟩
    cases d with
    | none => exact h1
    | some q =>
      dsimp only
      split_ifs with hdv hdur hneg
      · exact le_refl 0
      · linarith [hdur, hneg]
      · exact h1
      · exact h1
  | some cv =>
    dsimp only
    have hc : 0 ≤ chordAdjustCursor s := chordAdjust_nonneg ⟨h1, h2, h3, h4, h5, h6⟩
    have hvcs : ∀ p ∈ vcSet s.voiceCursors cv (chordAdjustCursor s), 0 ≤ p.2 :=
      vcSet_nonneg h4 hc
    refine ⟨?_, h2, h3, hvcs, (by intro m hm; cases hm), h6⟩
    cases d with
    | none => exact hc
    | some q =>
      dsimp only
      split_ifs with hdv hdur hneg
      · exact le_refl 0
      · linarith [hdur, hneg]
      · exact hc
      · exact hc

theorem walkInv_stepForward (divs : ℚ) (s : WalkState) (d : Option ℚ)
    (hs : WalkInv s) : WalkInv (stepForward divs s d) := by
  obtain ⟨h1, h2, h3, h4, h5, h6⟩ := hs
  unfold stepForward
  dsimp only
  refine ⟨?_, h2, h3, h4, (by intro m hm; cases hm), h6⟩
  cases d with
  | none => exact h1
  | some q =>
    dsimp only
    split_ifs with hdv hdur
    · exact add_nonneg h1 hdur.le
    · exact h1
    · exact h1

theorem walkInv_stepNote (divs mst : ℚ) (pIdx mIdx : ℕ) (s : WalkState)
    (n : NoteElem) (hs : WalkInv s) (ht : tupletOKb n = true) :
    WalkInv (stepNote divs mst pIdx mIdx s n) := by
  have hd : 0 ≤ getDurationInQuarters divs n := durq_nonneg divs n ht
  have hs2 : WalkInv (setActiveVoice (switchVoice s (staffOf n, voiceOf n))
      (staffOf n, voiceOf n)) :=
    walkInv_setActiveVoice _ _ (walkInv_switchVoice s _ hs)
  unfold stepNote
  split_ifs with hcue hgr hrest
  · exact hs
  · exact walkInv_graceStep mst pIdx mIdx s n hs
  · exact walkInv_restStep _ _ _ _ hs2 hd
  · dsimp only
    cases hp : resolvePitch n with
    | none => exact hs2
    | some v =>
      obtain ⟨st, oc, alter⟩ := v
      dsimp only
      split_ifs with hchord
      · exact walkInv_chordMemberStep mst pIdx mIdx _ _ n _ st oc alter hs2 hd
      · exact walkInv_newNoteStep mst pIdx mIdx _ _ n _ st oc alter hs2 hd

theorem walkInv_stepElem (divs mst : ℚ) (pIdx mIdx : ℕ) (s : WalkState)
    (e : MeasureElem) (hs : WalkInv s) (he : elemOKb e = true) :
    WalkInv (stepElem divs mst pIdx mIdx s e) := by
  cases e with
  | backup d => exact walkInv_stepBackup divs s d hs
  | forward d => exact walkInv_stepForward divs s d hs
  | note n => exact walkInv_stepNote divs mst pIdx mIdx s n hs he
  | other => exact hs

theorem walkInv_initWalk (acc : List RawNote) : WalkInv (initWalk acc) := by
  refine ⟨le_refl 0, le_refl 0, le_refl 0, ?_, ?_, le_refl 0⟩
  · intro p hp
    cases hp
  · intro m hm
    cases hm

/-!  C7: cursor non-negativity.  -/

/-- C7 counterexample: a note whose time modification carries a negative
`normal-notes` count (-1, a value `parseInt` can return) has derived
duration -1; the plain note-advance then drives the cursor to -1 < 0,
so the walk cursor can become negative. -/
theorem cursor_negative_counterexample :
    (runElems 1 0 0 0 (initWalk []) [.note negTupletNote]).cursor = -1 ∧
    ((-1 : ℚ) < 0) := by
  constructor
  · have hd : getDurationInQuarters 1 negTupletNote = -1 := by
      simp [getDurationInQuarters, negTupletNote, typeToQuarters, dotted,
        dottedGo, getTupletRatio, orOneZ]
    simp only [negTupletNote] at hd
    simp [runElems, stepElem, stepNote, negTupletNote, hd, resolvePitch,
      switchVoice, setActiveVoice, newNoteStep, chordClose, initWalk,
      show ¬((0:ℚ) < -1) by norm_num]
  · norm_num

/-- C7 amended: provided every note's tuplet counts are positive (so all
derived durations are nonnegative — the code does not guard against
negative time-modification values), the walk-state invariant "cursor,
saved voice cursors, chord bookkeeping and high-water mark are all
nonnegative" holds initially and is preserved by every measure child; and
a backup whose duration (in quarters) exceeds the current cursor clamps
the cursor to exactly zero. -/
theorem cursor_nonneg_invariant :
    (∀ acc, WalkInv (initWalk acc)) ∧
    (∀ (divs mst : ℚ) (pIdx mIdx : ℕ) (s : WalkState) (e : MeasureElem),
      WalkInv s → elemOKb e = true → WalkInv (stepElem divs mst pIdx mIdx s e)) ∧
    (∀ (divs mst : ℚ) (pIdx mIdx : ℕ) (s : WalkState) (q : ℚ),
      0 < divs → s.inChord = false → 0 ≤ s.cursor → s.cursor < q / divs →
      (stepElem divs mst pIdx mIdx s (.backup (some q))).cursor = 0) := by
  refine ⟨walkInv_initWalk, walkInv_stepElem, ?_⟩
  intro divs mst pIdx mIdx s q hdv hic hc hlt
  show (stepBackup divs s (some q)).cursor = 0
  unfold stepBackup
  cases hcv : s.currentVoice with
  | none =>
    simp only [hdv, if_true]
    have h1 : 0 < q / divs := lt_of_le_of_lt hc hlt
    have h2 : s.cursor - q / divs < 0 := by linarith
    simp [h1, h2]
  | some cv =>
    have hadj : chordAdjustCursor s = s.cursor := by
      unfold chordAdjustCursor
      simp [hic]
    simp only [hadj, hdv, if_true]
    have h1 : 0 < q / divs := lt_of_le_of_lt hc hlt
    have h2 : s.cursor - q / divs < 0 := by linarith
    simp [h1, h2]

theorem cursor_nonneg_invariant_witness :
    WalkInv (initWalk []) ∧
    WalkInv (stepElem 1 0 0 0 (initWalk []) (.note (simpleNote "C" 1 false))) ∧
    (stepElem 1 0 0 0 (initWalk []) (.backup (some 5))).cursor = 0 :=
  ⟨cursor_nonneg_invariant.1 [],
   cursor_nonneg_invariant.2.1 1 0 0 0 (initWalk []) (.note (simpleNote "C" 1 false))
     (cursor_nonneg_invariant.1 []) rfl,
   cursor_nonneg_invariant.2.2 1 0 0 0 (initWalk []) 5 (by norm_num) rfl
     (by norm_num [initWalk]) (by norm_num [initWalk])⟩

/-!  Tie-resolver machinery: map, index and single-step lemmas.  -/

theorem chainSel_true {k : TieKey} {n : RawNote} (h : chainSel k n = true) :
    n.isGrace = false ∧ tieKey n = k := by
  unfold chainSel at h
  simp only [Bool.and_eq_true, Bool.not_eq_true', decide_eq_true_eq] at h
  exact h

theorem chainSel_false {k : TieKey} {n : RawNote} (h : chainSel k n = false) :
    n.isGrace = true ∨ tieKey n ≠ k := by
  unfold chainSel at h
  simp only [Bool.and_eq_false_iff, Bool.not_eq_true', Bool.not_eq_true,
    decide_eq_false_iff_not] at h
  rcases h with h | h
  · left
    simpa using h
  · right
    simpa using h

theorem mapGet_mem {m : List (TieKey × ℕ)} {k : TieKey} {v : ℕ}
    (h : mapGet m k = some v) : (k, v) ∈ m := by
  induction m with
  | nil => simp [mapGet] at h
  | cons p ps ih =>
    unfold mapGet at h
    split_ifs at h with hk
    · cases h
      rw [← hk]
      simp
    · exact List.mem_cons_of_mem p (ih h)

theorem mem_mapErase {m : List (TieKey × ℕ)} {k : TieKey} {p : TieKey × ℕ}
    (h : p ∈ mapErase m k) : p ∈ m ∧ p.1 ≠ k := by
  unfold mapErase at h
  have := List.mem_filter.mp h
  exact ⟨this.1, by simpa using this.2⟩

theorem mem_mapSet {m : List (TieKey × ℕ)} {k : TieKey} {v : ℕ} {p : TieKey × ℕ}
    (h : p ∈ mapSet m k v) : p = (k, v) ∨ (p ∈ m ∧ p.1 ≠ k) := by
  unfold mapSet at h
  rcases List.mem_cons.mp h with h | h
  · exact Or.inl h
  · exact Or.inr (mem_mapErase h)

theorem mapGet_cons (p : TieKey × ℕ) (ps : List (TieKey × ℕ)) (k : TieKey) :
    mapGet (p :: ps) k = if p.1 = k then some p.2 else mapGet ps k := rfl

theorem mapGet_mapErase_self (m : List (TieKey × ℕ)) (k : TieKey) :
    mapGet (mapErase m k) k = none := by
  induction m with
  | nil => rfl
  | cons p ps ih =>
    unfold mapErase at ih ⊢
    rw [List.filter_cons]
    split_ifs with hp
    · have hne : p.1 ≠ k := by simpa using hp
      rw [mapGet_cons, if_neg hne]
      exact ih
    · exact ih

theorem mapGet_mapErase_ne {m : List (TieKey × ℕ)} {k k' : TieKey} (hk : k' ≠ k) :
    mapGet (mapErase m k) k' = mapGet m k' := by
  induction m with
  | nil => rfl
  | cons p ps ih =>
    unfold mapErase at ih ⊢
    rw [List.filter_cons]
    split_ifs with hp
    · rw [mapGet_cons, mapGet_cons, ih]
    · have hpk : p.1 = k := by simpa using hp
      rw [mapGet_cons p ps k', if_neg (by rw [hpk]; exact fun h => hk h.symm)]
      exact ih

theorem mapGet_mapSet_self (m : List (TieKey × ℕ)) (k : TieKey) (v : ℕ) :
    mapGet (mapSet m k v) k = some v := by
  unfold mapSet
  rw [mapGet_cons, if_pos rfl]

theorem mapGet_mapSet_ne {m : List (TieKey × ℕ)} {k k' : TieKey} {v : ℕ}
    (hk : k' ≠ k) : mapGet (mapSet m k v) k' = mapGet m k' := by
  unfold mapSet
  rw [mapGet_cons, if_neg (fun h => hk h.symm)]
  exact mapGet_mapErase_ne hk

theorem length_modifyIdx (l : List MergedNote) (i : ℕ) (f : MergedNote → MergedNote) :
    (modifyIdx l i f).length = l.length := by
  induction l generalizing i with
  | nil => rfl
  | cons x xs ih =>
    cases i with
    | zero => rfl
    | succ j => simpa [modifyIdx] using ih j

theorem getElem?_modifyIdx_ne (l : List MergedNote) (i j : ℕ)
    (f : MergedNote → MergedNote) (h : j ≠ i) : (modifyIdx l i f)[j]? = l[j]? := by
  induction l generalizing i j with
  | nil => rfl
  | cons x xs ih =>
    cases i with
    | zero =>
      cases j with
      | zero => exact absurd rfl h
      | succ j2 => simp [modifyIdx]
    | succ i2 =>
      cases j with
      | zero => simp [modifyIdx]
      | succ j2 =>
        simp only [modifyIdx, List.getElem?_cons_succ]
        exact ih i2 j2 (fun hc => h (by rw [hc]))

theorem getElem?_modifyIdx_self {l : List MergedNote} {i : ℕ}
    {f : MergedNote → MergedNote} {x : MergedNote} (h : l[i]? = some x) :
    (modifyIdx l i f)[i]? = some (f x) := by
  induction l generalizing i with
  | nil => simp at h
  | cons y ys ih =>
    cases i with
    | zero =>
      simp only [List.getElem?_cons_zero, Option.some.injEq] at h
      simp [modifyIdx, h]
    | succ i2 =>
      simp only [List.getElem?_cons_succ] at h
      simpa [modifyIdx] using ih h

theorem map_time_modifyIdx (l : List MergedNote) (i : ℕ) (d : ℚ) :
    (modifyIdx l i (absorbDuration d)).map MergedNote.time = l.map MergedNote.time := by
  induction l generalizing i with
  | nil => rfl
  | cons x xs ih =>
    cases i with
    | zero => simp [modifyIdx, absorbDuration]
    | succ j => simpa [modifyIdx] using ih j

theorem mem_modifyIdx {l : List MergedNote} {i : ℕ} {f : MergedNote → MergedNote}
    {x : MergedNote} (h : x ∈ modifyIdx l i f) : x ∈ l ∨ ∃ y ∈ l, x = f y := by
  induction l generalizing i with
  | nil => cases h
  | cons y ys ih =>
    cases i with
    | zero =>
      rcases List.mem_cons.mp h with h | h
      · exact Or.inr ⟨y, by simp, h⟩
      · exact Or.inl (List.mem_cons_of_mem y h)
    | succ j =>
      rcases List.mem_cons.mp h with h | h
      · exact Or.inl (by rw [h]; simp)
      · rcases ih h with h2 | ⟨z, hz, hxz⟩
        · exact Or.inl (List.mem_cons_of_mem y h2)
        · exact Or.inr ⟨z, List.mem_cons_of_mem y hz, hxz⟩

theorem mergeStep_grace (st : List MergedNote × List (TieKey × ℕ)) {n : RawNote}
    (hg : n.isGrace = true) : mergeStep st n = (st.1 ++ [cleanNote n], st.2) := by
  unfold mergeStep
  rw [if_pos hg]

theorem mergeStep_absorb (st : List MergedNote × List (TieKey × ℕ)) {n : RawNote}
    {idx : ℕ} (hg : n.isGrace = false) (hstop : n.tieStop = true)
    (hget : mapGet st.2 (tieKey n) = some idx) :
    mergeStep st n = (modifyIdx st.1 idx (absorbDuration n.duration),
      if n.tieStart then st.2 else mapErase st.2 (tieKey n)) := by
  unfold mergeStep
  rw [hg]
  simp only [Bool.false_eq_true, if_false, hget, hstop, if_true]
  split_ifs <;> rfl

theorem mergeStep_append (st : List MergedNote × List (TieKey × ℕ)) {n : RawNote}
    (hg : n.isGrace = false)
    (h : n.tieStop = false ∨ mapGet st.2 (tieKey n) = none) :
    mergeStep st n = (st.1 ++ [cleanNote n],
      if n.tieStart then mapSet st.2 (tieKey n) st.1.length else st.2) := by
  unfold mergeStep
  rw [hg]
  simp only [Bool.false_eq_true, if_false]
  cases hget : mapGet st.2 (tieKey n) with
  | none => rfl
  | some idx =>
    rcases h with h | h
    · rw [h]
      simp
    · rw [hget] at h
      cases h

/-- The decision of whether a step appends exactly one event. -/
theorem len_mergeStep_append (st : List MergedNote × List (TieKey × ℕ)) {n : RawNote}
    (h : n.isGrace = true ∨ n.tieStop = false ∨ mapGet st.2 (tieKey n) = none) :
    (mergeStep st n).1.length = st.1.length + 1 := by
  rcases h with h | h
  · rw [mergeStep_grace st h]
    simp
  · cases hg : n.isGrace with
    | true =>
      rw [mergeStep_grace st hg]
      simp
    | false =>
      rw [mergeStep_append st hg h]
      simp

theorem len_mergeStep_absorb (st : List MergedNote × List (TieKey × ℕ)) {n : RawNote}
    {idx : ℕ} (hg : n.isGrace = false) (hstop : n.tieStop = true)
    (hget : mapGet st.2 (tieKey n) = some idx) :
    (mergeStep st n).1.length = st.1.length := by
  rw [mergeStep_absorb st hg hstop hget]
  exact length_modifyIdx _ _ _

theorem mergeTiesAux_append (a b : List RawNote)
    (st : List MergedNote × List (TieKey × ℕ)) :
    mergeTiesAux st (a ++ b) = mergeTiesAux (mergeTiesAux st a) b := by
  induction a generalizing st with
  | nil => rfl
  | cons n ns ih => simp [mergeTiesAux, ih]

theorem rangeOK_step (st : List MergedNote × List (TieKey × ℕ)) (n : RawNote)
    (h : mapRangeOK st) : mapRangeOK (mergeStep st n) := by
  cases hg : n.isGrace with
  | true =>
    rw [mergeStep_grace st hg]
    intro p hp
    have := h p hp
    simp only [List.length_append, List.length_cons, List.length_nil]
    omega
  | false =>
    cases hget : mapGet st.2 (tieKey n) with
    | some idx =>
      cases hstop : n.tieStop with
      | true =>
        rw [mergeStep_absorb st hg hstop hget]
        intro p hp
        rw [length_modifyIdx]
        split_ifs at hp with hts
        · exact h p hp
        · exact h p (mem_mapErase hp).1
      | false =>
        rw [mergeStep_append st hg (Or.inl hstop)]
        intro p hp
        simp only [List.length_append, List.length_cons, List.length_nil]
        split_ifs at hp with hts
        · rcases mem_mapSet hp with h2 | h2
          · rw [h2]
            omega
          · have := h p h2.1
            omega
        · have := h p hp
          omega
    | none =>
      rw [mergeStep_append st hg (Or.inr hget)]
      intro p hp
      simp only [List.length_append, List.length_cons, List.length_nil]
      split_ifs at hp with hts
      · rcases mem_mapSet hp with h2 | h2
        · rw [h2]
          omega
        · have := h p h2.1
          omega
      · have := h p hp
        omega

theorem run_rangeOK (l : List RawNote) (st : List MergedNote × List (TieKey × ℕ))
    (h : mapRangeOK st) : mapRangeOK (mergeTiesAux st l) := by
  induction l generalizing st with
  | nil => exact h
  | cons n ns ih => exact ih _ (rangeOK_step st n h)

theorem step_guardedAt (st : List MergedNote × List (TieKey × ℕ)) (n : RawNote)
    {i : ℕ} (h : guardedAt st i) :
    (mergeStep st n).1[i]? = st.1[i]? ∧ guardedAt (mergeStep st n) i := by
  obtain ⟨hlt, hptr⟩ := h
  cases hg : n.isGrace with
  | true =>
    rw [mergeStep_grace st hg]
    refine ⟨List.getElem?_append_left hlt, ?_, hptr⟩
    simp only [List.length_append, List.length_cons, List.length_nil]
    omega
  | false =>
    cases hget : mapGet st.2 (tieKey n) with
    | some idx =>
      cases hstop : n.tieStop with
      | true =>
        rw [mergeStep_absorb st hg hstop hget]
        have hidx : idx ≠ i := hptr _ (mapGet_mem hget)
        refine ⟨getElem?_modifyIdx_ne _ _ _ _ (fun hc => hidx hc.symm), ?_, ?_⟩
        · rw [length_modifyIdx]
          exact hlt
        · intro p hp
          split_ifs at hp with hts
          · exact hptr p hp
          · exact hptr p (mem_mapErase hp).1
      | false =>
        rw [mergeStep_append st hg (Or.inl hstop)]
        refine ⟨List.getElem?_append_left hlt, ?_, ?_⟩
        · simp only [List.length_append, List.length_cons, List.length_nil]
          omega
        · intro p hp
          split_ifs at hp with hts
          · rcases mem_mapSet hp with h2 | h2
            · rw [h2]
              omega
            · exact hptr p h2.1
          · exact hptr p hp
    | none =>
      rw [mergeStep_append st hg (Or.inr hget)]
      refine ⟨List.getElem?_append_left hlt, ?_, ?_⟩
      · simp only [List.length_append, List.length_cons, List.length_nil]
        omega
      · intro p hp
        split_ifs at hp with hts
        · rcases mem_mapSet hp with h2 | h2
          · rw [h2]
            omega
          · exact hptr p h2.1
        · exact hptr p hp

theorem run_guardedAt (l : List RawNote) (st : List MergedNote × List (TieKey × ℕ))
    {i : ℕ} (h : guardedAt st i) : (mergeTiesAux st l).1[i]? = st.1[i]? := by
  induction l generalizing st with
  | nil => rfl
  | cons n ns ih =>
    have := step_guardedAt st n h
    calc (mergeTiesAux (mergeStep st n) ns).1[i]? = (mergeStep st n).1[i]? :=
          ih _ this.2
      _ = st.1[i]? := this.1

theorem mergeStep_mapGet_other (st : List MergedNote × List (TieKey × ℕ))
    (n : RawNote) (k : TieKey) (h : n.isGrace = true ∨ tieKey n ≠ k) :
    mapGet (mergeStep st n).2 k = mapGet st.2 k := by
  cases hg : n.isGrace with
  | true => rw [mergeStep_grace st hg]
  | false =>
    have hkne : tieKey n ≠ k := by
      rcases h with h | h
      · rw [hg] at h
        cases h
      · exact h
    have hkne2 : k ≠ tieKey n := fun hc => hkne hc.symm
    cases hget : mapGet st.2 (tieKey n) with
    | some idx =>
      cases hstop : n.tieStop with
      | true =>
        rw [mergeStep_absorb st hg hstop hget]
        split_ifs
        · rfl
        · exact mapGet_mapErase_ne hkne2
      | false =>
        rw [mergeStep_append st hg (Or.inl hstop)]
        split_ifs
        · exact mapGet_mapSet_ne hkne2
        · rfl
    | none =>
      rw [mergeStep_append st hg (Or.inr hget)]
      split_ifs
      · exact mapGet_mapSet_ne hkne2
      · rfl

theorem step_guardedExcept (k : TieKey) (st : List MergedNote × List (TieKey × ℕ))
    (n : RawNote) {i : ℕ} (hge : guardedExcept k st i)
    (h : n.isGrace = true ∨ tieKey n ≠ k) :
    (mergeStep st n).1[i]? = st.1[i]? ∧ guardedExcept k (mergeStep st n) i := by
  obtain ⟨hlt, hptr⟩ := hge
  cases hg : n.isGrace with
  | true =>
    rw [mergeStep_grace st hg]
    refine ⟨List.getElem?_append_left hlt, ?_, hptr⟩
    simp only [List.length_append, List.length_cons, List.length_nil]
    omega
  | false =>
    have hkne : tieKey n ≠ k := by
      rcases h with h2 | h2
      · rw [hg] at h2
        cases h2
      · exact h2
    cases hget : mapGet st.2 (tieKey n) with
    | some idx =>
      cases hstop : n.tieStop with
      | true =>
        rw [mergeStep_absorb st hg hstop hget]
        have hidx : idx ≠ i := hptr _ (mapGet_mem hget) hkne
        refine ⟨getElem?_modifyIdx_ne _ _ _ _ (fun hc => hidx hc.symm), ?_, ?_⟩
        · rw [length_modifyIdx]
          exact hlt
        · intro p hp hpk
          split_ifs at hp with hts
          · exact hptr p hp hpk
          · exact hptr p (mem_mapErase hp).1 hpk
      | false =>
        rw [mergeStep_append st hg (Or.inl hstop)]
        refine ⟨List.getElem?_append_left hlt, ?_, ?_⟩
        · simp only [List.length_append, List.length_cons, List.length_nil]
          omega
        · intro p hp hpk
          split_ifs at hp with hts
          · rcases mem_mapSet hp with h2 | h2
            · rw [h2]
              omega
            · exact hptr p h2.1 hpk
          · exact hptr p hp hpk
    | none =>
      rw [mergeStep_append st hg (Or.inr hget)]
      refine ⟨List.getElem?_append_left hlt, ?_, ?_⟩
      · simp only [List.length_append, List.length_cons, List.length_nil]
        omega
      · intro p hp hpk
        split_ifs at hp with hts
        · rcases mem_mapSet hp with h2 | h2
          · rw [h2]
            omega
          · exact hptr p h2.1 hpk
        · exact hptr p hp hpk

theorem step_phaseB (k : TieKey) (st : List MergedNote × List (TieKey × ℕ))
    (i : ℕ) (v : MergedNote) (n : RawNote) (hB : PhaseB k st i v)
    (h : n.isGrace = true ∨ tieKey n ≠ k) : PhaseB k (mergeStep st n) i v := by
  obtain ⟨hget, hgetl, hge, hrange⟩ := hB
  have hstep := step_guardedExcept k st n hge h
  exact ⟨by rw [mergeStep_mapGet_other st n k h]; exact hget,
    by rw [hstep.1]; exact hgetl, hstep.2, rangeOK_step st n hrange⟩

theorem step_open (k : TieKey) (st : List MergedNote × List (TieKey × ℕ))
    (s₁ : RawNote) (hsel : chainSel k s₁ = true) (hstart : s₁.tieStart = true)
    (hget : mapGet st.2 k = none) (hrange : mapRangeOK st) :
    PhaseB k (mergeStep st s₁) st.1.length (cleanNote s₁) := by
  obtain ⟨hg, hkey⟩ := chainSel_true hsel
  have hgetn : mapGet st.2 (tieKey s₁) = none := by rw [hkey]; exact hget
  have heq : mergeStep st s₁ =
      (st.1 ++ [cleanNote s₁], mapSet st.2 (tieKey s₁) st.1.length) := by
    rw [mergeStep_append st hg (Or.inr hgetn), hstart]
    simp
  unfold PhaseB guardedExcept mapRangeOK
  rw [heq]
  refine ⟨by rw [hkey]; exact mapGet_mapSet_self _ _ _,
    List.getElem?_concat_length _ _, ⟨?_, ?_⟩, ?_⟩
  · simp only [List.length_append, List.length_cons, List.length_nil]
    omega
  · intro p hp hpk
    rcases mem_mapSet hp with h2 | h2
    · exact absurd (by rw [h2, hkey]) hpk
    · exact Nat.ne_of_lt (hrange p h2.1)
  · intro p hp
    simp only [List.length_append, List.length_cons, List.length_nil]
    rcases mem_mapSet hp with h2 | h2
    · rw [h2]
      omega
    · have := hrange p h2.1
      omega

theorem step_continue (k : TieKey) (st : List MergedNote × List (TieKey × ℕ))
    (i : ℕ) (v : MergedNote) (r : RawNote) (hB : PhaseB k st i v)
    (hsel : chainSel k r = true) (hstop : r.tieStop = true)
    (hstart : r.tieStart = true) :
    PhaseB k (mergeStep st r) i (absorbDuration r.duration v) := by
  obtain ⟨hg, hkey⟩ := chainSel_true hsel
  obtain ⟨hget, hgetl, ⟨hlt, hptr⟩, hrange⟩ := hB
  have hgetr : mapGet st.2 (tieKey r) = some i := by rw [hkey]; exact hget
  have heq : mergeStep st r = (modifyIdx st.1 i (absorbDuration r.duration), st.2) := by
    rw [mergeStep_absorb st hg hstop hgetr, hstart]
    simp
  unfold PhaseB guardedExcept mapRangeOK
  rw [heq]
  refine ⟨hget, getElem?_modifyIdx_self hgetl,
    ⟨by rw [length_modifyIdx]; exact hlt, hptr⟩, ?_⟩
  intro p hp
  rw [length_modifyIdx]
  exact hrange p hp

theorem step_close (k : TieKey) (st : List MergedNote × List (TieKey × ℕ))
    (i : ℕ) (v : MergedNote) (r : RawNote) (hB : PhaseB k st i v)
    (hsel : chainSel k r = true) (hstop : r.tieStop = true)
    (hstart : r.tieStart = false) :
    (mergeStep st r).1[i]? = some (absorbDuration r.duration v) ∧
    guardedAt (mergeStep st r) i := by
  obtain ⟨hg, hkey⟩ := chainSel_true hsel
  obtain ⟨hget, hgetl, ⟨hlt, hptr⟩, hrange⟩ := hB
  have hgetr : mapGet st.2 (tieKey r) = some i := by rw [hkey]; exact hget
  have heq : mergeStep st r =
      (modifyIdx st.1 i (absorbDuration r.duration), mapErase st.2 (tieKey r)) := by
    rw [mergeStep_absorb st hg hstop hgetr, hstart]
    simp
  unfold guardedAt
  rw [heq]
  refine ⟨getElem?_modifyIdx_self hgetl, by rw [length_modifyIdx]; exact hlt, ?_⟩
  intro p hp
  have h2 := mem_mapErase hp
  refine hptr p h2.1 ?_
  rw [← hkey]
  exact h2.2

theorem run_len_noabsorb (l : List RawNote) :
    ∀ (st : List MergedNote × List (TieKey × ℕ)),
      (∀ n ∈ l, n.isGrace = true ∨ n.tieStop = false) →
      (mergeTiesAux st l).1.length = st.1.length + l.length := by
  induction l with
  | nil =>
    intro st _
    rfl
  | cons n ns ih =>
    intro st h
    have hor : n.isGrace = true ∨ n.tieStop = false ∨
        mapGet st.2 (tieKey n) = none := by
      rcases h n (by simp) with h2 | h2
      · exact Or.inl h2
      · exact Or.inr (Or.inl h2)
    have hstep : (mergeStep st n).1.length = st.1.length + 1 :=
      len_mergeStep_append st hor
    have h3 := ih (mergeStep st n) (fun x hx => h x (List.mem_cons_of_mem n hx))
    show (mergeTiesAux (mergeStep st n) ns).1.length = _
    rw [h3, hstep]
    simp only [List.length_cons]
    omega

/-- Run of the tie loop from an open chain: the representative ends with
the chain's remaining durations absorbed, and (when no unrelated event is
itself a dangling tie stop) exactly the chain continuations are absorbed. -/
theorem tie_runB (k : TieKey) (l : List RawNote) :
    ∀ (st : List MergedNote × List (TieKey × ℕ)) (i : ℕ) (v : MergedNote)
      (rest : List RawNote), l.filter (chainSel k) = rest → chainTail rest →
      PhaseB k st i v →
      ((mergeTiesAux st l).1[i]? =
        some (⟨v.pitch, v.time, v.duration + (rest.map RawNote.duration).sum,
              v.velocity, v.measureIndex⟩ : MergedNote)) ∧
      ((∀ n ∈ l, chainSel k n = true ∨ n.isGrace = true ∨ n.tieStop = false) →
        (mergeTiesAux st l).1.length + rest.length = st.1.length + l.length) := by
  induction l with
  | nil =>
    intro st i v rest hfil htail hB
    have hrest : rest = [] := by simpa using hfil.symm
    subst hrest
    constructor
    · simp only [List.map_nil, List.sum_nil, add_zero]
      exact hB.2.1
    · intro hall
      simp [mergeTiesAux]
  | cons n l' ih =>
    intro st i v rest hfil htail hB
    have hstep : mergeTiesAux st (n :: l') = mergeTiesAux (mergeStep st n) l' := rfl
    cases hsel : chainSel k n with
    | false =>
      have hfil' : l'.filter (chainSel k) = rest := by
        rw [List.filter_cons, hsel] at hfil
        simpa using hfil
      have hB' := step_phaseB k st i v n hB (chainSel_false hsel)
      have hres := ih (mergeStep st n) i v rest hfil' htail hB'
      refine ⟨hres.1, ?_⟩
      intro hall
      have hor : n.isGrace = true ∨ n.tieStop = false ∨
          mapGet st.2 (tieKey n) = none := by
        rcases hall n (by simp) with h2 | h2 | h2
        · rw [h2] at hsel
          cases hsel
        · exact Or.inl h2
        · exact Or.inr (Or.inl h2)
      have hlen := len_mergeStep_append st hor
      have h4 := hres.2 (fun x hx => hall x (List.mem_cons_of_mem n hx))
      rw [hstep]
      simp only [List.length_cons] at h4 ⊢
      omega
    | true =>
      obtain ⟨hg, hkey⟩ := chainSel_true hsel
      have hfil2 : n :: l'.filter (chainSel k) = rest := by
        rw [List.filter_cons, hsel] at hfil
        simpa using hfil
      cases rest with
      | nil => cases hfil2
      | cons r rest' =>
        injection hfil2 with hnr hfil'
        subst hnr
        cases rest' with
        | nil =>
          obtain ⟨hstop, hnostart⟩ : n.tieStop = true ∧ n.tieStart = false := htail
          have hclose := step_close k st i v n hB hsel hstop hnostart
          constructor
          · rw [hstep, run_guardedAt l' _ hclose.2, hclose.1]
            simp [absorbDuration]
          · intro hall
            have hlen : (mergeStep st n).1.length = st.1.length :=
              len_mergeStep_absorb st hg hstop (by rw [hkey]; exact hB.1)
            have hnone : ∀ x ∈ l', x.isGrace = true ∨ x.tieStop = false := by
              intro x hx
              rcases hall x (List.mem_cons_of_mem n hx) with h2 | h2 | h2
              · exfalso
                have h5 := List.filter_eq_nil_iff.mp hfil' x hx
                rw [h2] at h5
                exact h5 rfl
              · exact Or.inl h2
              · exact Or.inr h2
            have h6 := run_len_noabsorb l' (mergeStep st n) hnone
            rw [hstep]
            simp only [List.length_cons, List.length_nil] at h6 ⊢
            omega
        | cons r2 rs2 =>
          obtain ⟨hstop, hstart, htail'⟩ :
              n.tieStop = true ∧ n.tieStart = true ∧ chainTail (r2 :: rs2) := htail
          have hB' := step_continue k st i v n hB hsel hstop hstart
          have hres := ih (mergeStep st n) i (absorbDuration n.duration v)
            (r2 :: rs2) hfil' htail' hB'
          constructor
          · rw [hstep, hres.1]
            simp [absorbDuration, add_assoc]
          · intro hall
            have hlen : (mergeStep st n).1.length = st.1.length :=
              len_mergeStep_absorb st hg hstop (by rw [hkey]; exact hB.1)
            have h4 := hres.2 (fun x hx => hall x (List.mem_cons_of_mem n hx))
            rw [hstep]
            simp only [List.length_cons] at h4 ⊢
            omega

theorem tie_runA (k : TieKey) (l : List RawNote) :
    ∀ (st : List MergedNote × List (TieKey × ℕ)) (s₁ : RawNote)
      (rest : List RawNote), l.filter (chainSel k) = s₁ :: rest →
      s₁.tieStart = true → chainTail rest → mapGet st.2 k = none →
      mapRangeOK st →
      (∃ i : ℕ, (mergeTiesAux st l).1[i]? =
        some (⟨s₁.pitch, s₁.time, s₁.duration + (rest.map RawNote.duration).sum,
              s₁.velocity, s₁.measureIndex⟩ : MergedNote)) ∧
      ((∀ n ∈ l, chainSel k n = true ∨ n.isGrace = true ∨ n.tieStop = false) →
        (mergeTiesAux st l).1.length + rest.length = st.1.length + l.length) := by
  induction l with
  | nil =>
    intro st s₁ rest hfil hstart htail hget hrange
    simp at hfil
  | cons n l' ih =>
    intro st s₁ rest hfil hstart htail hget hrange
    have hstep : mergeTiesAux st (n :: l') = mergeTiesAux (mergeStep st n) l' := rfl
    cases hsel : chainSel k n with
    | false =>
      have hfil' : l'.filter (chainSel k) = s₁ :: rest := by
        rw [List.filter_cons, hsel] at hfil
        simpa using hfil
      have hor := chainSel_false hsel
      have hres := ih (mergeStep st n) s₁ rest hfil' hstart htail
        (by rw [mergeStep_mapGet_other st n k hor]; exact hget)
        (rangeOK_step st n hrange)
      refine ⟨hres.1, ?_⟩
      intro hall
      have hor2 : n.isGrace = true ∨ n.tieStop = false ∨
          mapGet st.2 (tieKey n) = none := by
        rcases hall n (by simp) with h2 | h2 | h2
        · rw [h2] at hsel
          cases hsel
        · exact Or.inl h2
        · exact Or.inr (Or.inl h2)
      have hlen := len_mergeStep_append st hor2
      have h4 := hres.2 (fun x hx => hall x (List.mem_cons_of_mem n hx))
      rw [hstep]
      simp only [List.length_cons] at h4 ⊢
      omega
    | true =>
      have hfil2 : n :: l'.filter (chainSel k) = s₁ :: rest := by
        rw [List.filter_cons, hsel] at hfil
        simpa using hfil
      injection hfil2 with hns hfil'
      subst hns
      obtain ⟨hg, hkey⟩ := chainSel_true hsel
      have hB := step_open k st n hsel hstart hget hrange
      have hres := tie_runB k l' (mergeStep st n) st.1.length (cleanNote n) rest
        hfil' htail hB
      constructor
      · exact ⟨st.1.length, by rw [hstep]; exact hres.1⟩
      · intro hall
        have hgetn : mapGet st.2 (tieKey n) = none := by rw [hkey]; exact hget
        have hlen := len_mergeStep_append st (Or.inr (Or.inr hgetn))
        have h4 := hres.2 (fun x hx => hall x (List.mem_cons_of_mem n hx))
        rw [hstep]
        simp only [List.length_cons] at h4 ⊢
        omega

/-!  C1: tie round-trip.  -/

/-- C1: a chain of tied notes on one pitch+staff+part+voice key — first
segment starting a tie, every continuation stopping (and, except the
last, restarting) it — merges into a single output event carrying the
first segment's onset and the sum of all segment durations, no matter how
many unrelated events (other keys, other voices, grace notes) are
interleaved; when no unrelated event is itself an absorbable tie stop,
the output is shorter than the input by exactly the number of chain
continuations, i.e. the chain contributes exactly one event. -/
theorem tie_chain_roundtrip (l : List RawNote) (k : TieKey) (s₁ : RawNote)
    (rest : List RawNote) (hfil : l.filter (chainSel k) = s₁ :: rest)
    (hstart : s₁.tieStart = true) (htail : chainTail rest) :
    (∃ i : ℕ, (mergeTies l)[i]? =
      some (⟨s₁.pitch, s₁.time, s₁.duration + (rest.map RawNote.duration).sum,
            s₁.velocity, s₁.measureIndex⟩ : MergedNote)) ∧
    ((∀ n ∈ l, chainSel k n = true ∨ n.isGrace = true ∨ n.tieStop = false) →
      (mergeTies l).length + rest.length = l.length) := by
  have h := tie_runA k l ([], []) s₁ rest hfil hstart htail rfl
    (by intro p hp; cases hp)
  exact ⟨h.1, fun hall => by have := h.2 hall; simpa using this⟩

theorem tie_chain_roundtrip_witness :
    (∃ i : ℕ, (mergeTies wTieList)[i]? =
      some (⟨wTieS1.pitch, wTieS1.time,
            wTieS1.duration + ([wTieS2, wTieS3].map RawNote.duration).sum,
            wTieS1.velocity, wTieS1.measureIndex⟩ : MergedNote)) ∧
    (mergeTies wTieList).length + [wTieS2, wTieS3].length = wTieList.length := by
  have h := tie_chain_roundtrip wTieList ("A4", 1, 0, 1) wTieS1 [wTieS2, wTieS3]
    (by simp [wTieList, wTieS1, wTieU1, wTieS2, wTieU2, wTieS3, chainSel, tieKey])
    rfl ⟨rfl, rfl, rfl, rfl⟩
  refine ⟨h.1, h.2 ?_⟩
  intro n hn
  simp only [wTieList, List.mem_cons, List.not_mem_nil, or_false] at hn
  rcases hn with h2 | h2 | h2 | h2 | h2 <;> subst h2 <;>
    simp [chainSel, tieKey, wTieS1, wTieU1, wTieS2, wTieU2, wTieS3]

/-!  C4: grace-note law.  -/

/-- C4: a grace note with a resolvable pitch before the position at
absolute time T = measureStart + cursor is emitted as a separate event at
max(0, T - 1/8) with duration 1/8, velocity 3/5 and isGrace = true, and
the walk state is otherwise completely unchanged (no cursor advance, no
chord bookkeeping); and the tie resolver passes every grace event through
unchanged — it is never absorbed and its duration is never extended. -/
theorem grace_note_law (divs mst : ℚ) (pIdx mIdx : ℕ) (s : WalkState)
    (n : NoteElem) (st oc : String) (alter : Option ℤ)
    (hcue : n.isCue = false) (hgr : n.isGrace = true)
    (hp : resolvePitch n = some (st, oc, alter)) :
    (stepElem divs mst pIdx mIdx s (.note n) =
      { s with notes := s.notes ++ [⟨pitchName st oc alter,
        max 0 (mst + s.cursor - 1/8), 1/8, 3/5, mIdx, false, false, pIdx,
        staffOf n, 1, true⟩] }) ∧
    (∀ (l₁ l₂ : List RawNote) (g : RawNote), g.isGrace = true →
      ∃ i : ℕ, (mergeTies (l₁ ++ g :: l₂))[i]? = some (cleanNote g)) := by
  constructor
  · show stepNote divs mst pIdx mIdx s n = _
    unfold stepNote graceStep
    simp [hcue, hgr, hp]
  · intro l₁ l₂ g hg
    have h0 : mapRangeOK (([] : List MergedNote), ([] : List (TieKey × ℕ))) := by
      intro p hp2
      cases hp2
    have hr := run_rangeOK l₁ ([], []) h0
    refine ⟨(mergeTiesAux ([], []) l₁).1.length, ?_⟩
    unfold mergeTies
    rw [mergeTiesAux_append, show mergeTiesAux (mergeTiesAux ([], []) l₁) (g :: l₂) =
      mergeTiesAux (mergeStep (mergeTiesAux ([], []) l₁) g) l₂ from rfl,
      mergeStep_grace _ hg]
    have hga : guardedAt ((mergeTiesAux ([], []) l₁).1 ++ [cleanNote g],
        (mergeTiesAux ([], []) l₁).2) (mergeTiesAux ([], []) l₁).1.length := by
      constructor
      · simp only [List.length_append, List.length_cons, List.length_nil]
        omega
      · intro p hp2
        exact Nat.ne_of_lt (hr p hp2)
    rw [run_guardedAt l₂ _ hga]
    exact List.getElem?_concat_length _ _

theorem grace_note_law_witness :
    (stepElem 1 2 0 0 (initWalk []) (.note exGraceNote) =
      { initWalk [] with notes := (initWalk []).notes ++ [⟨pitchName "B" "3" none,
        max 0 (2 + (initWalk []).cursor - 1/8), 1/8, 3/5, 0, false, false, 0,
        staffOf exGraceNote, 1, true⟩] }) ∧
    (∃ i : ℕ, (mergeTies ([wTieU1] ++
        (⟨"B3", 0, 1/8, 3/5, 0, false, false, 0, 1, 1, true⟩ : RawNote) :: []))[i]? =
      some (cleanNote ⟨"B3", 0, 1/8, 3/5, 0, false, false, 0, 1, 1, true⟩)) := by
  have h := grace_note_law 1 2 0 0 (initWalk []) exGraceNote "B" "3" none rfl rfl
    (by simp [exGraceNote, resolvePitch])
  exact ⟨h.1, h.2 [wTieU1] [] ⟨"B3", 0, 1/8, 3/5, 0, false, false, 0, 1, 1, true⟩ rfl⟩

/-!  C2: chord minimum-duration law.  -/

theorem dur_simpleNote (p : String) (d : ℚ) (ch : Bool) (h : 0 < d) :
    getDurationInQuarters 1 (simpleNote p d ch) = d := by
  simp [getDurationInQuarters, simpleNote, h]

theorem dur_voiceNote (p : String) (d : ℚ) (v : ℤ) (h : 0 < d) :
    getDurationInQuarters 1 (voiceNote p d v) = d := by
  simp [getDurationInQuarters, voiceNote, h]

/-- C2 counterexample: a chord group (first member duration 2, second
member duration 1, onset 0) closed by a rest of duration 1 discards the
pending minimum-duration adjustment: the next note in the voice starts at
cursor 3 = 0 + 2 + 1, not at 2 = (0 + 1) + 1 as the claim's
minimum-duration law would require. -/
theorem chord_min_rest_counterexample :
    (runElems 1 0 0 0 (initWalk [])
        [.note (simpleNote "C" 2 false), .note (simpleNote "E" 1 true),
         .note (simpleRest 1), .note (simpleNote "G" 1 false)]).notes.map
      RawNote.time = [0, 0, 3] ∧ ((3 : ℚ) ≠ 2) := by
  have h1 : stepElem 1 0 0 0 (initWalk []) (.note (simpleNote "C" 2 false)) =
      ⟨2, 2, 0, false, [((1, 1), 2)], some 1, some (1, 1), false, some 2, 0,
       [⟨"C4", 0, 2, 7/10, 0, false, false, 0, 1, 1, false⟩]⟩ := by
    simp [stepElem, stepNote, graceStep, switchVoice, setActiveVoice, restStep, chordClose, chordMemberStep, newNoteStep, simpleNote, getDurationInQuarters, resolvePitch,
      pitchName, velocityOf, tieStartOf, tieStopOf, staffOf, voiceOf, initWalk, vcSet,
      show (0:ℚ) < 2 by norm_num, show max (0:ℚ) 2 = 2 by norm_num]
  have h2 : stepElem 1 0 0 0
      (⟨2, 2, 0, false, [((1, 1), 2)], some 1, some (1, 1), false, some 2, 0,
        [⟨"C4", 0, 2, 7/10, 0, false, false, 0, 1, 1, false⟩]⟩ : WalkState)
      (.note (simpleNote "E" 1 true)) =
      ⟨2, 2, 0, false, [((1, 1), 2)], some 1, some (1, 1), true, some 1, 0,
       [⟨"C4", 0, 2, 7/10, 0, false, false, 0, 1, 1, false⟩,
        ⟨"E4", 0, 1, 7/10, 0, false, false, 0, 1, 1, false⟩]⟩ := by
    simp [stepElem, stepNote, graceStep, switchVoice, setActiveVoice, restStep, chordClose, chordMemberStep, newNoteStep, simpleNote, getDurationInQuarters, resolvePitch,
      pitchName, velocityOf, tieStartOf, tieStopOf, staffOf, voiceOf,
      show (0:ℚ) < 1 by norm_num, show min (2:ℚ) 1 = 1 by norm_num]
  have h3 : stepElem 1 0 0 0
      (⟨2, 2, 0, false, [((1, 1), 2)], some 1, some (1, 1), true, some 1, 0,
        [⟨"C4", 0, 2, 7/10, 0, false, false, 0, 1, 1, false⟩,
         ⟨"E4", 0, 1, 7/10, 0, false, false, 0, 1, 1, false⟩]⟩ : WalkState)
      (.note (simpleRest 1)) =
      ⟨3, 3, 0, true, [((1, 1), 3)], some 1, some (1, 1), false, none, 0,
       [⟨"C4", 0, 2, 7/10, 0, false, false, 0, 1, 1, false⟩,
        ⟨"E4", 0, 1, 7/10, 0, false, false, 0, 1, 1, false⟩]⟩ := by
    simp [stepElem, stepNote, graceStep, switchVoice, setActiveVoice, restStep, chordClose, chordMemberStep, newNoteStep, simpleRest, getDurationInQuarters, staffOf,
      voiceOf, vcSet, show (0:ℚ) < 1 by norm_num,
      show (2:ℚ) + 1 = 3 by norm_num, show max (2:ℚ) 3 = 3 by norm_num]
  constructor
  · show (stepElem 1 0 0 0 (stepElem 1 0 0 0 (stepElem 1 0 0 0 (stepElem 1 0 0 0
      (initWalk []) (.note (simpleNote "C" 2 false))) (.note (simpleNote "E" 1 true)))
      (.note (simpleRest 1))) (.note (simpleNote "G" 1 false))).notes.map
        RawNote.time = _
    rw [h1, h2, h3]
    simp [stepElem, stepNote, graceStep, switchVoice, setActiveVoice, restStep, chordClose, chordMemberStep, newNoteStep, simpleNote, getDurationInQuarters, resolvePitch,
      pitchName, velocityOf, tieStartOf, tieStopOf, staffOf, voiceOf, vcSet,
      show (0:ℚ) < 1 by norm_num]
  · norm_num

/-- C2 amended: when the chord group is closed by a following new note,
by a backup, or by a voice switch, the voice cursor after the group is
onset + minimum member duration (not onset + first member's duration);
a rest or forward ending the group instead discards the pending
adjustment. -/
theorem chord_min_duration_close (d₁ d₂ d₃ b mst : ℚ)
    (h₁ : 0 < d₁) (h₂ : 0 < d₂) (h₃ : 0 < d₃) :
    ((runElems 1 mst 0 0 (initWalk [])
        [.note (simpleNote "C" d₁ false), .note (simpleNote "E" d₂ true),
         .note (simpleNote "G" d₃ false)]).notes.map RawNote.time =
      [mst, mst, mst + min d₁ d₂]) ∧
    (vcGet (runElems 1 mst 0 0 (initWalk [])
        [.note (simpleNote "C" d₁ false), .note (simpleNote "E" d₂ true),
         .backup (some b)]).voiceCursors (1, 1) = some (min d₁ d₂)) ∧
    ((runElems 1 mst 0 0 (initWalk [])
        [.note (simpleNote "C" d₁ false), .note (simpleNote "E" d₂ true),
         .note (voiceNote "G" d₃ 2)]).notes.map RawNote.time =
      [mst, mst, mst + min d₁ d₂]) ∧
    (d₂ < d₁ → mst + min d₁ d₂ ≠ mst + d₁) := by
  have e₁ := dur_simpleNote "C" d₁ false h₁
  have e₂ := dur_simpleNote "E" d₂ true h₂
  have e₃ := dur_simpleNote "G" d₃ false h₃
  have e₄ := dur_voiceNote "G" d₃ 2 h₃
  simp only [simpleNote] at e₁ e₂ e₃
  simp only [voiceNote] at e₄
  have h1 : stepElem 1 mst 0 0 (initWalk []) (.note (simpleNote "C" d₁ false)) =
      ⟨d₁, d₁, 0, false, [((1, 1), d₁)], some 1, some (1, 1), false, some d₁, 0,
       [⟨"C4", mst, d₁, 7/10, 0, false, false, 0, 1, 1, false⟩]⟩ := by
    simp [stepElem, stepNote, graceStep, switchVoice, setActiveVoice, restStep, chordClose, chordMemberStep, newNoteStep, simpleNote, e₁, resolvePitch, pitchName, velocityOf,
      tieStartOf, tieStopOf, staffOf, voiceOf, initWalk, vcSet, h₁,
      max_eq_right h₁.le]
  have h2 : stepElem 1 mst 0 0
      (⟨d₁, d₁, 0, false, [((1, 1), d₁)], some 1, some (1, 1), false, some d₁, 0,
        [⟨"C4", mst, d₁, 7/10, 0, false, false, 0, 1, 1, false⟩]⟩ : WalkState)
      (.note (simpleNote "E" d₂ true)) =
      ⟨d₁, d₁, 0, false, [((1, 1), d₁)], some 1, some (1, 1), true, some (min d₁ d₂), 0,
       [⟨"C4", mst, d₁, 7/10, 0, false, false, 0, 1, 1, false⟩,
        ⟨"E4", mst, d₂, 7/10, 0, false, false, 0, 1, 1, false⟩]⟩ := by
    simp [stepElem, stepNote, graceStep, switchVoice, setActiveVoice, restStep, chordClose, chordMemberStep, newNoteStep, simpleNote, e₂, resolvePitch, pitchName, velocityOf,
      tieStartOf, tieStopOf, staffOf, voiceOf, h₂]
  refine ⟨?_, ?_, ?_, ?_⟩
  · show (stepElem 1 mst 0 0 (stepElem 1 mst 0 0 (stepElem 1 mst 0 0 (initWalk [])
      (.note (simpleNote "C" d₁ false))) (.note (simpleNote "E" d₂ true)))
      (.note (simpleNote "G" d₃ false))).notes.map RawNote.time = _
    rw [h1, h2]
    rcases le_or_lt d₁ d₂ with hle | hlt
    · have hmin : min d₁ d₂ = d₁ := min_eq_left hle
      simp [stepElem, stepNote, graceStep, switchVoice, setActiveVoice, restStep, chordClose, chordMemberStep, newNoteStep, simpleNote, e₃, resolvePitch, pitchName, velocityOf,
        tieStartOf, tieStopOf, staffOf, voiceOf, hmin]
    · have hmin : min d₁ d₂ = d₂ := min_eq_right hlt.le
      simp [stepElem, stepNote, graceStep, switchVoice, setActiveVoice, restStep, chordClose, chordMemberStep, newNoteStep, simpleNote, e₃, resolvePitch, pitchName, velocityOf,
        tieStartOf, tieStopOf, staffOf, voiceOf, hmin, hlt]
  · show vcGet (stepElem 1 mst 0 0 (stepElem 1 mst 0 0 (stepElem 1 mst 0 0 (initWalk [])
      (.note (simpleNote "C" d₁ false))) (.note (simpleNote "E" d₂ true)))
      (.backup (some b))).voiceCursors (1, 1) = _
    rw [h1, h2]
    rcases le_or_lt d₁ d₂ with hle | hlt
    · have hmin : min d₁ d₂ = d₁ := min_eq_left hle
      simp [stepElem, stepBackup, chordAdjustCursor, vcSet, vcGet, hmin]
    · have hmin : min d₁ d₂ = d₂ := min_eq_right hlt.le
      simp [stepElem, stepBackup, chordAdjustCursor, vcSet, vcGet, hmin, hlt]
  · show (stepElem 1 mst 0 0 (stepElem 1 mst 0 0 (stepElem 1 mst 0 0 (initWalk [])
      (.note (simpleNote "C" d₁ false))) (.note (simpleNote "E" d₂ true)))
      (.note (voiceNote "G" d₃ 2))).notes.map RawNote.time = _
    rw [h1, h2]
    rcases le_or_lt d₁ d₂ with hle | hlt
    · have hmin : min d₁ d₂ = d₁ := min_eq_left hle
      simp [stepElem, stepNote, graceStep, switchVoice, setActiveVoice, restStep, chordClose, chordMemberStep, newNoteStep, voiceNote, e₄, resolvePitch, pitchName, velocityOf,
        tieStartOf, tieStopOf, staffOf, voiceOf, orOneZ, chordAdjustCursor, vcSet,
        vcGet, hmin, Prod.ext_iff]
    · have hmin : min d₁ d₂ = d₂ := min_eq_right hlt.le
      simp [stepElem, stepNote, graceStep, switchVoice, setActiveVoice, restStep, chordClose, chordMemberStep, newNoteStep, voiceNote, e₄, resolvePitch, pitchName, velocityOf,
        tieStartOf, tieStopOf, staffOf, voiceOf, orOneZ, chordAdjustCursor, vcSet,
        vcGet, hmin, hlt, Prod.ext_iff]
  · intro hlt heq
    have : min d₁ d₂ = d₁ := by linarith
    rw [min_eq_right hlt.le] at this
    exact absurd this (ne_of_lt hlt)

theorem chord_min_duration_close_witness :
    ((runElems 1 0 0 0 (initWalk [])
        [.note (simpleNote "C" 2 false), .note (simpleNote "E" 1 true),
         .note (simpleNote "G" 1 false)]).notes.map RawNote.time =
      [0, 0, 0 + min 2 1]) ∧
    (vcGet (runElems 1 0 0 0 (initWalk [])
        [.note (simpleNote "C" 2 false), .note (simpleNote "E" 1 true),
         .backup (some 1)]).voiceCursors (1, 1) = some (min 2 1)) ∧
    ((runElems 1 0 0 0 (initWalk [])
        [.note (simpleNote "C" 2 false), .note (simpleNote "E" 1 true),
         .note (voiceNote "G" 1 2)]).notes.map RawNote.time =
      [0, 0, 0 + min 2 1]) ∧
    ((1 : ℚ) < 2 → (0 : ℚ) + min 2 1 ≠ 0 + 2) :=
  chord_min_duration_close 2 1 1 1 0 (by norm_num) (by norm_num) (by norm_num)

theorem zero_duration_fallback_witness :
    (stepElem 1 0 0 0 (initWalk []) (.note zeroDurNote)).notes =
      [] ++ [⟨pitchName "D" "5" none, 0 + (0 : ℚ), 1/4, velocityOf zeroDurNote, 0,
              tieStartOf zeroDurNote, tieStopOf zeroDurNote, 0, staffOf zeroDurNote,
              voiceOf zeroDurNote, false⟩] ∧
    (stepElem 1 0 0 0 (initWalk []) (.note zeroDurNote)).cursor = 0 :=
  zero_duration_fallback 1 0 0 0 (initWalk []) zeroDurNote "D" "5" none rfl rfl rfl rfl
    rfl (by intro t ht; simp [zeroDurNote] at ht)
    (by intro r hr; simp [zeroDurNote] at hr) rfl rfl

/-!  C5: pipeline output sanity.  Walk-side lemmas: which branches leave
the emitted-notes list unchanged, and the shape of every appended event. -/

theorem stepBackup_notes (divs : ℚ) (s : WalkState) (d : Option ℚ) :
    (stepBackup divs s d).notes = s.notes := by
  unfold stepBackup
  cases s.currentVoice <;> rfl

theorem switchVoice_notes (s : WalkState) (vk : ℤ × ℤ) :
    (switchVoice s vk).notes = s.notes := by
  unfold switchVoice
  cases s.currentVoice with
  | none => rfl
  | some cv =>
    dsimp only
    split_ifs <;> rfl

theorem setActiveVoice_notes (s : WalkState) (vk : ℤ × ℤ) :
    (setActiveVoice s vk).notes = s.notes := rfl

theorem restStep_notes (s : WalkState) (vk : ℤ × ℤ) (ch : Bool) (dur : ℚ) :
    (restStep s vk ch dur).notes = s.notes := by
  unfold restStep
  dsimp only
  split_ifs <;> rfl

theorem chordClose_notes (s : WalkState) (vk : ℤ × ℤ) :
    (chordClose s vk).notes = s.notes := by
  unfold chordClose
  split_ifs with h
  · cases s.chordMinDuration with
    | none => rfl
    | some m =>
      dsimp only
      split_ifs <;> rfl
  · rfl

/-- Every event a note step appends has positive duration, and (for a
nonnegative measure start and a nonnegative walk state) nonnegative onset. -/
theorem stepNote_mem (divs mst : ℚ) (pIdx mIdx : ℕ) (s : WalkState) (n : NoteElem)
    (x : RawNote) (hx : x ∈ (stepNote divs mst pIdx mIdx s n).notes) :
    x ∈ s.notes ∨ (0 < x.duration ∧ (0 ≤ mst → WalkInv s → 0 ≤ x.time)) := by
  have hs2inv : WalkInv s → WalkInv (setActiveVoice
      (switchVoice s (staffOf n, voiceOf n)) (staffOf n, voiceOf n)) :=
    fun hinv => walkInv_setActiveVoice _ _ (walkInv_switchVoice s _ hinv)
  unfold stepNote at hx
  dsimp only at hx
  split_ifs at hx with hcue hgr hrest hchord
  · exact Or.inl hx
  · unfold graceStep at hx
    cases hp : resolvePitch n with
    | none =>
      rw [hp] at hx
      exact Or.inl hx
    | some v =>
      obtain ⟨st, oc, alter⟩ := v
      rw [hp] at hx
      dsimp only at hx
      rcases List.mem_append.mp hx with h | h
      · exact Or.inl h
      · rw [List.mem_singleton] at h
        subst h
        refine Or.inr ⟨by norm_num, fun _ _ => le_max_left 0 _⟩
  · rw [restStep_notes, setActiveVoice_notes, switchVoice_notes] at hx
    exact Or.inl hx
  · cases hp : resolvePitch n with
    | none =>
      rw [hp] at hx
      dsimp only at hx
      rw [setActiveVoice_notes, switchVoice_notes] at hx
      exact Or.inl hx
    | some v =>
      obtain ⟨st, oc, alter⟩ := v
      rw [hp] at hx
      dsimp only at hx
      unfold chordMemberStep at hx
      dsimp only at hx
      rw [setActiveVoice_notes, switchVoice_notes] at hx
      rcases List.mem_append.mp hx with h | h
      · exact Or.inl h
      · rw [List.mem_singleton] at h
        subst h
        refine Or.inr ⟨?_, ?_⟩
        · show 0 < if 0 < getDurationInQuarters divs n
              then getDurationInQuarters divs n else (1/4 : ℚ)
          split_ifs with hdp
          · exact hdp
          · norm_num
        · intro hmst hinv
          show 0 ≤ mst + (setActiveVoice (switchVoice s (staffOf n, voiceOf n))
              (staffOf n, voiceOf n)).lastNoteStart
          exact add_nonneg hmst ((hs2inv hinv).2.1)
  · cases hp : resolvePitch n with
    | none =>
      rw [hp] at hx
      dsimp only at hx
      rw [setActiveVoice_notes, switchVoice_notes] at hx
      exact Or.inl hx
    | some v =>
      obtain ⟨st, oc, alter⟩ := v
      rw [hp] at hx
      dsimp only at hx
      unfold newNoteStep at hx
      dsimp only at hx
      rcases List.mem_append.mp hx with h | h
      · rw [chordClose_notes, setActiveVoice_notes, switchVoice_notes] at h
        exact Or.inl h
      · rw [List.mem_singleton] at h
        subst h
        refine Or.inr ⟨?_, ?_⟩
        · show 0 < if 0 < getDurationInQuarters divs n
              then getDurationInQuarters divs n else (1/4 : ℚ)
          split_ifs with hdp
          · exact hdp
          · norm_num
        · intro hmst hinv
          show 0 ≤ mst + (chordClose (setActiveVoice (switchVoice s
              (staffOf n, voiceOf n)) (staffOf n, voiceOf n))
              (staffOf n, voiceOf n)).cursor
          exact add_nonneg hmst ((walkInv_chordClose _ _ (hs2inv hinv)).1)

theorem stepElem_mem (divs mst : ℚ) (pIdx mIdx : ℕ) (s : WalkState) (e : MeasureElem)
    (x : RawNote) (hx : x ∈ (stepElem divs mst pIdx mIdx s e).notes) :
    x ∈ s.notes ∨ (0 < x.duration ∧ (0 ≤ mst → WalkInv s → 0 ≤ x.time)) := by
  cases e with
  | backup d =>
    rw [show (stepElem divs mst pIdx mIdx s (.backup d)).notes
        = (stepBackup divs s d).notes from rfl, stepBackup_notes] at hx
    exact Or.inl hx
  | forward d => exact Or.inl hx
  | note n => exact stepNote_mem divs mst pIdx mIdx s n x hx
  | other => exact Or.inl hx

theorem walkInv_runElems (divs mst : ℚ) (pIdx mIdx : ℕ) (es : List MeasureElem) :
    ∀ s : WalkState, WalkInv s → (∀ e ∈ es, elemOKb e = true) →
      WalkInv (runElems divs mst pIdx mIdx s es) := by
  induction es with
  | nil => exact fun s hs _ => hs
  | cons e es ih =>
    intro s hs hok
    exact ih _ (walkInv_stepElem divs mst pIdx mIdx s e hs (hok e (List.mem_cons_self e es)))
      (fun e2 he2 => hok e2 (List.mem_cons_of_mem e he2))

theorem runElems_mem (divs mst : ℚ) (pIdx mIdx : ℕ) (es : List MeasureElem) :
    ∀ s : WalkState, ∀ x ∈ (runElems divs mst pIdx mIdx s es).notes,
      x ∈ s.notes ∨ (0 < x.duration ∧
        (0 ≤ mst → WalkInv s → (∀ e ∈ es, elemOKb e = true) → 0 ≤ x.time)) := by
  induction es with
  | nil => exact fun s x hx => Or.inl hx
  | cons e es ih =>
    intro s x hx
    rcases ih (stepElem divs mst pIdx mIdx s e) x hx with h | ⟨hd, ht⟩
    · rcases stepElem_mem divs mst pIdx mIdx s e x h with h2 | ⟨hd, ht⟩
      · exact Or.inl h2
      · exact Or.inr ⟨hd, fun hmst hinv _ => ht hmst hinv⟩
    · refine Or.inr ⟨hd, fun hmst hinv hok => ?_⟩
      exact ht hmst (walkInv_stepElem divs mst pIdx mIdx s e hinv
          (hok e (List.mem_cons_self e es)))
        (fun e2 he2 => hok e2 (List.mem_cons_of_mem e he2))

theorem runMeasure_mem (pIdx mIdx : ℕ) (c : MeasCtx) (acc : List RawNote)
    (m : Measure) (x : RawNote) (hx : x ∈ (runMeasure pIdx mIdx c acc m).2) :
    x ∈ acc ∨ (0 < x.duration ∧
      (0 ≤ c.mst → (∀ e ∈ m.elems, elemOKb e = true) → 0 ≤ x.time)) := by
  rcases runElems_mem (measDivisions c m) c.mst pIdx mIdx m.elems (initWalk acc) x hx
    with h | ⟨hd, ht⟩
  · exact Or.inl h
  · exact Or.inr ⟨hd, fun hmst hok => ht hmst (walkInv_initWalk acc) hok⟩

theorem runMeasure_mst (pIdx mIdx : ℕ) (c : MeasCtx) (acc : List RawNote)
    (m : Measure) (hmst : 0 ≤ c.mst) (hok : ∀ e ∈ m.elems, elemOKb e = true) :
    0 ≤ (runMeasure pIdx mIdx c acc m).1.mst := by
  have hinv : WalkInv (runElems (measDivisions c m) c.mst pIdx mIdx (initWalk acc)
      m.elems) :=
    walkInv_runElems (measDivisions c m) c.mst pIdx mIdx m.elems (initWalk acc)
      (walkInv_initWalk acc) hok
  have h6 := hinv.2.2.2.2.2
  unfold runMeasure
  dsimp only
  exact le_trans hmst (le_add_of_nonneg_right (le_trans h6 (le_max_right _ _)))

theorem runMeasures_mem (ms : List Measure) :
    ∀ (pIdx mIdx : ℕ) (c : MeasCtx) (acc : List RawNote) (x : RawNote),
      x ∈ runMeasures pIdx mIdx c acc ms →
      x ∈ acc ∨ (0 < x.duration ∧
        (0 ≤ c.mst → (∀ m ∈ ms, ∀ e ∈ m.elems, elemOKb e = true) → 0 ≤ x.time)) := by
  induction ms with
  | nil => exact fun _ _ _ _ x hx => Or.inl hx
  | cons m ms ih =>
    intro pIdx mIdx c acc x hx
    rcases ih pIdx (mIdx + 1) (runMeasure pIdx mIdx c acc m).1
        (runMeasure pIdx mIdx c acc m).2 x hx with h | ⟨hd, ht⟩
    · rcases runMeasure_mem pIdx mIdx c acc m x h with h2 | ⟨hd, ht⟩
      · exact Or.inl h2
      · exact Or.inr ⟨hd, fun hmst hok => ht hmst (hok m (List.mem_cons_self m ms))⟩
    · refine Or.inr ⟨hd, fun hmst hok => ?_⟩
      exact ht (runMeasure_mst pIdx mIdx c acc m hmst (hok m (List.mem_cons_self m ms)))
        (fun m2 hm2 => hok m2 (List.mem_cons_of_mem m hm2))

theorem runParts_mem (ps : List Part) :
    ∀ (pIdx : ℕ) (g : ℚ) (b bt : ℤ) (acc : List RawNote) (x : RawNote),
      x ∈ runParts pIdx g b bt acc ps →
      x ∈ acc ∨ (0 < x.duration ∧
        ((∀ p ∈ ps, ∀ m ∈ p.measures, ∀ e ∈ m.elems, elemOKb e = true) →
          0 ≤ x.time)) := by
  induction ps with
  | nil => exact fun _ _ _ _ _ x hx => Or.inl hx
  | cons p ps ih =>
    intro pIdx g b bt acc x hx
    rcases ih (pIdx + 1) g b bt (runMeasures pIdx 0 ⟨0, g, b, bt⟩ acc p.measures) x hx
      with h | ⟨hd, ht⟩
    · rcases runMeasures_mem p.measures pIdx 0 ⟨0, g, b, bt⟩ acc x h with h2 | ⟨hd, ht⟩
      · exact Or.inl h2
      · exact Or.inr ⟨hd, fun hok => ht (le_refl 0) (hok p (List.mem_cons_self p ps))⟩
    · exact Or.inr ⟨hd, fun hok => ht (fun p2 hp2 => hok p2 (List.mem_cons_of_mem p hp2))⟩

/-!  C5: the stable sort, as a filter characterization at each onset. -/

theorem orderedInsert_filter_time (t : ℚ) (a : RawNote) :
    ∀ m : List RawNote,
      List.filter (fun n => decide (n.time = t)) (List.orderedInsert noteLE a m) =
        if a.time = t then
          a :: List.filter (fun n => decide (n.time = t)) m
        else List.filter (fun n => decide (n.time = t)) m := by
  intro m
  induction m with
  | nil =>
    by_cases hat : a.time = t
    · simp [List.orderedInsert, List.filter_cons, hat]
    · simp [List.orderedInsert, List.filter_cons, hat]
  | cons b l ih =>
    simp only [List.orderedInsert]
    by_cases hab : noteLE a b
    · rw [if_pos hab]
      by_cases hat : a.time = t
      · simp [List.filter_cons, hat]
      · simp [List.filter_cons, hat]
    · rw [if_neg hab]
      have hba : b.time < a.time := lt_of_not_le hab
      by_cases hat : a.time = t
      · have hbt : ¬ b.time = t := fun hbt => absurd (hbt.trans hat.symm) (ne_of_lt hba)
        simp [List.filter_cons, ih, hat, hbt]
      · simp [List.filter_cons, ih, hat]

theorem insertionSort_filter_time (t : ℚ) :
    ∀ l : List RawNote,
      List.filter (fun n => decide (n.time = t)) (List.insertionSort noteLE l) =
        List.filter (fun n => decide (n.time = t)) l := by
  intro l
  induction l with
  | nil => rfl
  | cons a l ih =>
    simp only [List.insertionSort]
    rw [orderedInsert_filter_time t a (List.insertionSort noteLE l), ih]
    by_cases hat : a.time = t
    · rw [if_pos hat, List.filter_cons, if_pos (decide_eq_true hat)]
    · rw [if_neg hat, List.filter_cons, if_neg (by simp [hat])]

/-!  C5: the tie resolver preserves onset order (its output onsets form a
sublist of the input onsets) and membership-level onset/duration bounds. -/

theorem mergeStep_times (st : List MergedNote × List (TieKey × ℕ)) (n : RawNote) :
    (mergeStep st n).1.map MergedNote.time = st.1.map MergedNote.time ∨
    (mergeStep st n).1.map MergedNote.time = st.1.map MergedNote.time ++ [n.time] := by
  cases hg : n.isGrace with
  | true =>
    right
    rw [mergeStep_grace st hg]
    simp [cleanNote]
  | false =>
    cases hget : mapGet st.2 (tieKey n) with
    | none =>
      right
      rw [mergeStep_append st hg (Or.inr hget)]
      simp [cleanNote]
    | some idx =>
      cases hstop : n.tieStop with
      | false =>
        right
        rw [mergeStep_append st hg (Or.inl hstop)]
        simp [cleanNote]
      | true =>
        left
        rw [mergeStep_absorb st hg hstop hget]
        exact map_time_modifyIdx st.1 idx n.duration

theorem mergeTiesAux_times_sublist (l : List RawNote) :
    ∀ st : List MergedNote × List (TieKey × ℕ),
      ((mergeTiesAux st l).1.map MergedNote.time).Sublist
        (st.1.map MergedNote.time ++ l.map RawNote.time) := by
  induction l with
  | nil =>
    intro st
    show (st.1.map MergedNote.time).Sublist (st.1.map MergedNote.time ++ [])
    simp
  | cons n ns ih =>
    intro st
    have h := ih (mergeStep st n)
    rcases mergeStep_times st n with he | he
    · rw [he] at h
      refine h.trans ?_
      simp only [List.map_cons]
      refine List.Sublist.append_left ?_ _
      exact List.Sublist.cons _ (List.Sublist.refl _)
    · rw [he] at h
      refine h.trans ?_
      simp only [List.map_cons, List.append_assoc, List.singleton_append]
      exact List.Sublist.refl _

theorem mergeStep_mem_prop (P : MergedNote → Prop)
    (st : List MergedNote × List (TieKey × ℕ)) (n : RawNote)
    (hst : ∀ m ∈ st.1, P m) (hclean : P (cleanNote n))
    (habs : ∀ y : MergedNote, P y → P (absorbDuration n.duration y)) :
    ∀ m ∈ (mergeStep st n).1, P m := by
  intro m hm
  cases hg : n.isGrace with
  | true =>
    rw [mergeStep_grace st hg] at hm
    rcases List.mem_append.mp hm with h | h
    · exact hst m h
    · rw [List.mem_singleton] at h
      rw [h]
      exact hclean
  | false =>
    cases hget : mapGet st.2 (tieKey n) with
    | none =>
      rw [mergeStep_append st hg (Or.inr hget)] at hm
      rcases List.mem_append.mp hm with h | h
      · exact hst m h
      · rw [List.mem_singleton] at h
        rw [h]
        exact hclean
    | some idx =>
      cases hstop : n.tieStop with
      | false =>
        rw [mergeStep_append st hg (Or.inl hstop)] at hm
        rcases List.mem_append.mp hm with h | h
        · exact hst m h
        · rw [List.mem_singleton] at h
          rw [h]
          exact hclean
      | true =>
        rw [mergeStep_absorb st hg hstop hget] at hm
        rcases mem_modifyIdx hm with h | ⟨y, hy, hxy⟩
        · exact hst m h
        · rw [hxy]
          exact habs y (hst y hy)

theorem mergeTiesAux_mem_prop (P : MergedNote → Prop) (l : List RawNote) :
    ∀ st : List MergedNote × List (TieKey × ℕ),
      (∀ m ∈ st.1, P m) →
      (∀ n ∈ l, P (cleanNote n)) →
      (∀ n ∈ l, ∀ y : MergedNote, P y → P (absorbDuration n.duration y)) →
      ∀ m ∈ (mergeTiesAux st l).1, P m := by
  induction l with
  | nil => exact fun st hst _ _ m hm => hst m hm
  | cons n ns ih =>
    intro st hst hc ha m hm
    exact ih (mergeStep st n)
      (mergeStep_mem_prop P st n hst (hc n (List.mem_cons_self n ns))
        (ha n (List.mem_cons_self n ns)))
      (fun n2 hn2 => hc n2 (List.mem_cons_of_mem n hn2))
      (fun n2 hn2 => ha n2 (List.mem_cons_of_mem n hn2))
      m hm

/-- C5 counterexample: the "every onset is nonnegative" part of the claim
fails without a guard on tuplet counts.  On the document whose first note
carries a time modification with normal-notes -1 the pipeline emits an
event at onset -1: the first note gets derived duration -1, the cursor
moves to -1, and the second note is emitted there. -/
theorem pipeline_negative_onset_counterexample :
    (parseNotesFromMusicXML cexNegOnsetDoc).map MergedNote.time = [-1, 0] ∧
    ¬ (0 : ℚ) ≤ -1 := by
  constructor
  · have hd1 : getDurationInQuarters 1 negTupletNote = -1 := by
      simp [getDurationInQuarters, negTupletNote, typeToQuarters, dotted,
        dottedGo, getTupletRatio, orOneZ]
    have hd2 : getDurationInQuarters 1 (simpleNote "D" 1 false) = 1 := by
      simp [getDurationInQuarters, simpleNote, show (0:ℚ) < 1 by norm_num]
    have hg : inferDivisions (initialDivisions cexNegOnsetDoc)
        (allNotesOf cexNegOnsetDoc) = 1 := by
      simp [inferDivisions, initialDivisions, allNotesOf, cexNegOnsetDoc,
        negTupletNote, simpleNote, elemNote?, show ¬((1:ℚ) = 0) by norm_num]
    have hstep1 : stepElem 1 0 0 0 (initWalk []) (.note negTupletNote) =
        ⟨-1, 0, 0, false, [((1, 1), -1)], some 1, some (1, 1), false, some (-1), 0,
          [⟨"C4", 0, 1/4, 7/10, 0, false, false, 0, 1, 1, false⟩]⟩ := by
      simp only [negTupletNote] at hd1
      simp [stepElem, stepNote, negTupletNote, hd1, resolvePitch, switchVoice,
        setActiveVoice, newNoteStep, chordClose, initWalk, staffOf, voiceOf,
        pitchName, velocityOf, tieStartOf, tieStopOf, vcSet,
        show ¬((0:ℚ) < -1) by norm_num,
        show max (0:ℚ) (0 + -1) = 0 by rw [zero_add]; exact max_eq_left (by norm_num),
        show ("C" ++ "" ++ "4" : String) = "C4" from rfl]
    have hstep2 : stepElem 1 0 0 0
        (⟨-1, 0, 0, false, [((1, 1), -1)], some 1, some (1, 1), false, some (-1), 0,
          [⟨"C4", 0, 1/4, 7/10, 0, false, false, 0, 1, 1, false⟩]⟩ : WalkState)
        (.note (simpleNote "D" 1 false)) =
        ⟨0, 0, -1, false, [((1, 1), 0)], some 1, some (1, 1), false, some 1, -1,
          [⟨"C4", 0, 1/4, 7/10, 0, false, false, 0, 1, 1, false⟩,
           ⟨"D4", -1, 1, 7/10, 0, false, false, 0, 1, 1, false⟩]⟩ := by
      simp only [simpleNote] at hd2
      simp [stepElem, stepNote, simpleNote, hd2, resolvePitch, switchVoice,
        setActiveVoice, newNoteStep, chordClose, staffOf, voiceOf,
        pitchName, velocityOf, tieStartOf, tieStopOf, vcSet,
        show (0:ℚ) < 1 by norm_num,
        show max (0:ℚ) (-1 + 1) = 0 by norm_num,
        show ("D" ++ "" ++ "4" : String) = "D4" from rfl]
    have hrunE : runElems 1 0 0 0 (initWalk [])
        [.note negTupletNote, .note (simpleNote "D" 1 false)] =
        ⟨0, 0, -1, false, [((1, 1), 0)], some 1, some (1, 1), false, some 1, -1,
          [⟨"C4", 0, 1/4, 7/10, 0, false, false, 0, 1, 1, false⟩,
           ⟨"D4", -1, 1, 7/10, 0, false, false, 0, 1, 1, false⟩]⟩ := by
      show runElems 1 0 0 0 (stepElem 1 0 0 0 (initWalk []) (.note negTupletNote))
        [.note (simpleNote "D" 1 false)] = _
      rw [hstep1]
      show stepElem 1 0 0 0 _ (.note (simpleNote "D" 1 false)) = _
      rw [hstep2]
    have hE : runParts 0 1 4 4 [] cexNegOnsetDoc.parts =
        [(⟨"C4", 0, 1/4, 7/10, 0, false, false, 0, 1, 1, false⟩ : RawNote),
         (⟨"D4", -1, 1, 7/10, 0, false, false, 0, 1, 1, false⟩ : RawNote)] := by
      show runParts 0 1 4 4 []
        [⟨[{ elems := [.note negTupletNote, .note (simpleNote "D" 1 false)] }]⟩] = _
      simp only [runParts, runMeasures, runMeasure, measDivisions, measBeats,
        measBeatType]
      rw [hrunE]
    have hsort : sortNotes
        [(⟨"C4", 0, 1/4, 7/10, 0, false, false, 0, 1, 1, false⟩ : RawNote),
         (⟨"D4", -1, 1, 7/10, 0, false, false, 0, 1, 1, false⟩ : RawNote)] =
        [(⟨"D4", -1, 1, 7/10, 0, false, false, 0, 1, 1, false⟩ : RawNote),
         (⟨"C4", 0, 1/4, 7/10, 0, false, false, 0, 1, 1, false⟩ : RawNote)] := by
      simp [sortNotes, List.insertionSort, List.orderedInsert, noteLE,
        show ¬((0:ℚ) ≤ -1) by norm_num]
    have hmerge : mergeTies
        [(⟨"D4", -1, 1, 7/10, 0, false, false, 0, 1, 1, false⟩ : RawNote),
         (⟨"C4", 0, 1/4, 7/10, 0, false, false, 0, 1, 1, false⟩ : RawNote)] =
        [(⟨"D4", -1, 1, 7/10, 0⟩ : MergedNote), (⟨"C4", 0, 1/4, 7/10, 0⟩ : MergedNote)] := by
      simp [mergeTies, mergeTiesAux, mergeStep, mapGet, tieKey, cleanNote]
    have hparse : parseNotesFromMusicXML cexNegOnsetDoc =
        [(⟨"D4", -1, 1, 7/10, 0⟩ : MergedNote), (⟨"C4", 0, 1/4, 7/10, 0⟩ : MergedNote)] := by
      show mergeTies (sortNotes (runParts 0
          (inferDivisions (initialDivisions cexNegOnsetDoc) (allNotesOf cexNegOnsetDoc))
          (initialBeats cexNegOnsetDoc) (initialBeatType cexNegOnsetDoc)
          [] cexNegOnsetDoc.parts)) = _
      rw [hg, show initialBeats cexNegOnsetDoc = 4 from rfl,
        show initialBeatType cexNegOnsetDoc = 4 from rfl, hE, hsort, hmerge]
    rw [hparse]
    rfl
  · norm_num

/-- C5 (amended: onset nonnegativity needs positive tuplet counts, which
the code does not enforce — see the counterexample): for every input
document the pipeline output is sorted by nondecreasing onset and every
event has positive duration; when every note passes the positive-tuplet
check, every onset is also nonnegative; and the sort is stable: at each
onset value, filtering the sorted list gives exactly the emission-ordered
sublist of the input. -/
theorem pipeline_output_sanity (doc : MusicDoc) :
    List.Pairwise (fun a b : MergedNote => a.time ≤ b.time)
      (parseNotesFromMusicXML doc) ∧
    (∀ m ∈ parseNotesFromMusicXML doc, 0 < m.duration) ∧
    (docOKb doc = true → ∀ m ∈ parseNotesFromMusicXML doc, 0 ≤ m.time) ∧
    (∀ (l : List RawNote) (t : ℚ),
      List.filter (fun n => decide (n.time = t)) (sortNotes l) =
        List.filter (fun n => decide (n.time = t)) l) := by
  have hdef : parseNotesFromMusicXML doc = mergeTies (sortNotes (runParts 0
      (inferDivisions (initialDivisions doc) (allNotesOf doc))
      (initialBeats doc) (initialBeatType doc) [] doc.parts)) := rfl
  have hmemE : ∀ n ∈ sortNotes (runParts 0
      (inferDivisions (initialDivisions doc) (allNotesOf doc))
      (initialBeats doc) (initialBeatType doc) [] doc.parts),
      0 < n.duration ∧
      ((∀ p ∈ doc.parts, ∀ mm ∈ p.measures, ∀ e ∈ mm.elems, elemOKb e = true) →
        0 ≤ n.time) := by
    intro n hn
    have hnE : n ∈ runParts 0
        (inferDivisions (initialDivisions doc) (allNotesOf doc))
        (initialBeats doc) (initialBeatType doc) [] doc.parts :=
      (List.Perm.mem_iff (List.perm_insertionSort noteLE _)).mp hn
    rcases runParts_mem doc.parts 0
        (inferDivisions (initialDivisions doc) (allNotesOf doc))
        (initialBeats doc) (initialBeatType doc) [] n hnE with h | ⟨hd, ht⟩
    · exact absurd h (List.not_mem_nil n)
    · exact ⟨hd, ht⟩
  refine ⟨?_, ?_, ?_, fun l t => insertionSort_filter_time t l⟩
  · have h1 : List.Sorted noteLE (sortNotes (runParts 0
        (inferDivisions (initialDivisions doc) (allNotesOf doc))
        (initialBeats doc) (initialBeatType doc) [] doc.parts)) :=
      List.sorted_insertionSort noteLE _
    have h2 : (List.map RawNote.time (sortNotes (runParts 0
        (inferDivisions (initialDivisions doc) (allNotesOf doc))
        (initialBeats doc) (initialBeatType doc) [] doc.parts))).Pairwise (· ≤ ·) :=
      List.pairwise_map.mpr (List.Pairwise.imp (fun h => h) h1)
    have h3 := mergeTiesAux_times_sublist (sortNotes (runParts 0
        (inferDivisions (initialDivisions doc) (allNotesOf doc))
        (initialBeats doc) (initialBeatType doc) [] doc.parts)) ([], [])
    rw [hdef]
    exact List.pairwise_map.mp (List.Pairwise.sublist h3 h2)
  · intro m hm
    rw [hdef] at hm
    refine mergeTiesAux_mem_prop (fun x => 0 < x.duration) _ ([], [])
      (fun x hx => absurd hx (List.not_mem_nil x)) ?_ ?_ m hm
    · exact fun n hn => (hmemE n hn).1
    · intro n hn y hy
      show 0 < y.duration + n.duration
      exact add_pos hy (hmemE n hn).1
  · intro hok m hm
    have hok2 : ∀ p ∈ doc.parts, ∀ mm ∈ p.measures, ∀ e ∈ mm.elems,
        elemOKb e = true := by
      simp only [docOKb, List.all_eq_true] at hok
      exact hok
    rw [hdef] at hm
    refine mergeTiesAux_mem_prop (fun x => 0 ≤ x.time) _ ([], [])
      (fun x hx => absurd hx (List.not_mem_nil x)) ?_ (fun n hn y hy => hy) m hm
    exact fun n hn => (hmemE n hn).2 hok2

theorem pipeline_output_sanity_witness :
    docOKb exWholeDoc = true ∧
    (∀ m ∈ parseNotesFromMusicXML exWholeDoc, 0 ≤ m.time) :=
  ⟨by decide, (pipeline_output_sanity exWholeDoc).2.2.1 (by decide)⟩

end SheetMusic
